import Mathlib

/-!
Verification of the pycwlviewer graph-assembly engine (`pycwlviewer/cwlviewer.py`).

The viewer builds a graphviz diagram from SPARQL query results over an RDF
graph of a CWL workflow.  We model the pygraphviz graph state explicitly
(node insertion order, per-node attributes, edge list, the two clusters) and
translate each method of `CWLViewer` into a pure function over that state.
SPARQL query execution is external to the code under verification; the result
rows it would return are passed in as explicit lists (the `FactGraph`
structure below plays the role of the loaded `rdflib` graph together with its
four query result sets).
-/

namespace PyCwlViewer

/-- Node attributes that the viewer ever sets on a pygraphviz node:
`fillcolor`, `style`, `label`.  A node created implicitly by `add_edge`
carries none of them (`none` everywhere). -/
structure NodeAttrs where
  fillcolor : Option String
  style : Option String
  label : Option String
deriving DecidableEq, Repr

/-- Graph-level attributes set by `CWLViewer._init_dot_graph`. -/
structure GraphAttrs where
  bgcolor : Option String
  labeljust : Option String
  clusterrank : Option String
  nodeShape : Option String
deriving DecidableEq, Repr

/-- Attributes set on the two cluster subgraphs (`cluster_inputs`,
`cluster_outputs`). -/
structure ClusterAttrs where
  rank : Option String
  style : Option String
  label : Option String
  labelloc : Option String
deriving DecidableEq, Repr

/-- The state of the pygraphviz `AGraph` used by the viewer
(`directed=True, strict=False`, so parallel edges are kept).  Nodes are
identified by name; `nodeOrder` records insertion order, `nodeAttrs` the
attributes of each existing node (`none` = no such node).  The two clusters
record which node names belong to the `cluster_inputs` / `cluster_outputs`
subgraphs. -/
structure DotGraph where
  nodeOrder : List String
  nodeAttrs : String → Option NodeAttrs
  edges : List (String × String)
  inputsCluster : List String
  inputsClusterAttrs : Option ClusterAttrs
  outputsCluster : List String
  outputsClusterAttrs : Option ClusterAttrs
  graphAttrs : GraphAttrs

theorem DotGraph.ext {g h : DotGraph}
    (h1 : g.nodeOrder = h.nodeOrder) (h2 : g.nodeAttrs = h.nodeAttrs)
    (h3 : g.edges = h.edges) (h4 : g.inputsCluster = h.inputsCluster)
    (h5 : g.inputsClusterAttrs = h.inputsClusterAttrs)
    (h6 : g.outputsCluster = h.outputsCluster)
    (h7 : g.outputsClusterAttrs = h.outputsClusterAttrs)
    (h8 : g.graphAttrs = h.graphAttrs) : g = h := by
  cases g; cases h; simp_all

/-- Append a name to a list unless it is already present (how pygraphviz
registers a node or a subgraph member: at most once, in first-insertion
order). -/
def insertNew (k : String) (l : List String) : List String :=
  if k ∈ l then l else l ++ [k]

/-- `AGraph.add_node(name, fillcolor=..., style=..., label=...)`: creates the
node if absent, otherwise overwrites the given attributes (the viewer always
passes all three). -/
def addNode (g : DotGraph) (name : String) (attrs : NodeAttrs) : DotGraph :=
  { g with
    nodeOrder := insertNew name g.nodeOrder
    nodeAttrs := fun x => if x = name then some attrs else g.nodeAttrs x }

/-- Implicit node creation performed by `AGraph.add_edge` for an endpoint
that does not exist yet: the node appears with no attributes. -/
def ensureNode (g : DotGraph) (name : String) : DotGraph :=
  match g.nodeAttrs name with
  | some _ => g
  | none => addNode g name ⟨none, none, none⟩

/-- `AGraph.add_edge(a, b)` on a non-strict directed graph: creates missing
endpoints, then appends the edge (parallel edges are kept). -/
def addEdge (g : DotGraph) (a b : String) : DotGraph :=
  let g1 := ensureNode g a
  let g2 := ensureNode g1 b
  { g2 with edges := g2.edges ++ [(a, b)] }

/-- Characters after the first occurrence of a character, as
`urllib.parse.urlparse` computes a fragment: `url.split(c, 1)[1]`, empty if
the character does not occur. -/
def fragAux : List Char → List Char
  | [] => []
  | c :: cs => if c = '#' then cs else fragAux cs

/-- `urlparse(uri).fragment`: everything after the first `#` of the URI,
or the empty string when the URI has no `#`. -/
def fragment (s : String) : String := ⟨fragAux s.data⟩

/-- One result row of the `get_inner_edges` query: bound variables
`source_step`, `source_label`, `target_step`, `target_label`; the labels are
`none` when the query left them unbound. -/
structure InnerRow where
  source_step : String
  source_label : Option String
  target_step : String
  target_label : Option String
deriving DecidableEq, Repr

/-- One result row of the `get_input_edges` query: bound variables
`input` and `step`. -/
structure InputRow where
  input : String
  step : String
deriving DecidableEq, Repr

/-- One result row of the `get_output_edges` query: bound variables
`output` and `step`. -/
structure OutputRow where
  output : String
  step : String
deriving DecidableEq, Repr

/-- Label chosen for an inner-edge step node:
`row['label'] if row['label'] is not None else urlparse(step).fragment`. -/
def innerLabel (lbl : Option String) (step : String) : String :=
  match lbl with
  | some l => l
  | none => fragment step

/-- Attributes given to an inner-edge step node by `_set_inner_edges`. -/
def innerAttrs (lbl : Option String) (step : String) : NodeAttrs :=
  ⟨some "lightgoldenrodyellow", some "filled", some (innerLabel lbl step)⟩

/-- Body of the `for inner_edge_row in inner_edges` loop of
`_set_inner_edges`: add the source node, add the target node, add the
source-to-target edge. -/
def processInnerRow (g : DotGraph) (row : InnerRow) : DotGraph :=
  let g1 := addNode g row.source_step (innerAttrs row.source_label row.source_step)
  let g2 := addNode g1 row.target_step (innerAttrs row.target_label row.target_step)
  addEdge g2 row.source_step row.target_step

/-- `CWLViewer._set_inner_edges`, applied to the rows the inner-edges query
returned for the root binding. -/
def set_inner_edges (rows : List InnerRow) (g : DotGraph) : DotGraph :=
  rows.foldl processInnerRow g

/-- Attributes given to a workflow input or output node: light blue fill,
filled style, and the URI fragment as label (a declared label is never
consulted for boundary nodes). -/
def boundaryAttrs (u : String) : NodeAttrs :=
  ⟨some "#94DDF4", some "filled", some (fragment u)⟩

/-- Attributes `_set_input_edges` puts on the `cluster_inputs` subgraph. -/
def inputsClusterDecoration : ClusterAttrs :=
  ⟨some "same", some "dashed", some "Workflow Inputs", none⟩

/-- Attributes `_set_output_edges` puts on the `cluster_outputs` subgraph. -/
def outputsClusterDecoration : ClusterAttrs :=
  ⟨some "same", some "dashed", some "Workflow Outputs", some "b"⟩

/-- `inputs_subgraph.add_node(...)`: the node is created or updated in the
shared node set and becomes a member of the inputs cluster. -/
def addInputNode (g : DotGraph) (u : String) : DotGraph :=
  let g1 := addNode g u (boundaryAttrs u)
  { g1 with inputsCluster := insertNew u g1.inputsCluster }

/-- Body of the `for input_row in input_edges` loop of `_set_input_edges`:
add the styled input node to the cluster, then the input-to-step edge. -/
def processInputRow (g : DotGraph) (row : InputRow) : DotGraph :=
  addEdge (addInputNode g row.input) row.input row.step

/-- `CWLViewer._set_input_edges`: creates the `cluster_inputs` subgraph with
its attributes, then processes each result row. -/
def set_input_edges (rows : List InputRow) (g : DotGraph) : DotGraph :=
  let g0 := { g with inputsClusterAttrs := some inputsClusterDecoration }
  rows.foldl processInputRow g0

/-- `outputs_graph.add_node(...)`: create or update the styled output node
and record it in the outputs cluster. -/
def addOutputNode (g : DotGraph) (u : String) : DotGraph :=
  let g1 := addNode g u (boundaryAttrs u)
  { g1 with outputsCluster := insertNew u g1.outputsCluster }

/-- Body of the `for output_edge_row in output_edges` loop of
`_set_output_edges`: add the styled output node, then the step-to-output
edge. -/
def processOutputRow (g : DotGraph) (row : OutputRow) : DotGraph :=
  addEdge (addOutputNode g row.output) row.step row.output

/-- `CWLViewer._set_output_edges`: creates the `cluster_outputs` subgraph
with its attributes, then processes each result row. -/
def set_output_edges (rows : List OutputRow) (g : DotGraph) : DotGraph :=
  let g0 := { g with outputsClusterAttrs := some outputsClusterDecoration }
  rows.foldl processOutputRow g0

/-- `CWLViewer._init_dot_graph`: a fresh directed non-strict graph with the
fixed global styling. -/
def init_dot_graph : DotGraph :=
  { nodeOrder := []
    nodeAttrs := fun _ => none
    edges := []
    inputsCluster := []
    inputsClusterAttrs := none
    outputsCluster := []
    outputsClusterAttrs := none
    graphAttrs := ⟨some "#eeeeee", some "left", some "local", some "record"⟩ }

/-- The loaded RDF fact graph, abstracted by the result rows each of the four
bundled queries returns on it.  The three edge queries take the root URI as
the `root_graph` binding, so their rows are functions of that binding. -/
structure FactGraph where
  rootRows : List String
  innerRows : String → List InnerRow
  inputRows : String → List InputRow
  outputRows : String → List OutputRow

/-- Failure modes of viewer construction that are visible in the model.
`rootNotFound` models the exception escaping `get_root_graph_uri` when the
root query returns zero rows (`list(...)[0]` on an empty list). -/
inductive ViewerError where
  | rootNotFound
deriving DecidableEq, Repr

/-- `CWLViewer.get_root_graph_uri`: the `workflow` variable of the first row
of the root query; fails when the query returns no rows. -/
def get_root_graph_uri (fg : FactGraph) : Except ViewerError String :=
  match fg.rootRows with
  | [] => .error .rootNotFound
  | w :: _ => .ok w

/-- The diagram graph produced by the three extraction passes run in the
order `__init__` runs them, all bound to the same root URI. -/
def builtGraph (fg : FactGraph) (root : String) : DotGraph :=
  set_output_edges (fg.outputRows root)
    (set_input_edges (fg.inputRows root)
      (set_inner_edges (fg.innerRows root) init_dot_graph))

/-- `CWLViewer.__init__` after the document has been loaded: resolve the
root, then run the three extraction passes; any failure aborts construction
and no diagram is produced. -/
def CWLViewer_init (fg : FactGraph) : Except ViewerError DotGraph :=
  match get_root_graph_uri fg with
  | .error e => .error e
  | .ok root => .ok (builtGraph fg root)

/-- The observable steps of `CWLViewer.__init__`, in the order the
constructor performs them.  The extractor events record the `root_graph`
binding they were invoked with. -/
inductive InitEvent where
  | load
  | resolveRoot (root : String)
  | extractInner (binding : String)
  | extractInput (binding : String)
  | extractOutput (binding : String)
deriving DecidableEq, Repr

/-- `CWLViewer.__init__` instrumented with its event trace: load the
document, resolve the root, then run the three extractors in source order,
each bound to the resolved root; appending each event as the corresponding
statement completes. -/
def CWLViewer_initTrace (fg : FactGraph) :
    Except ViewerError (DotGraph × List InitEvent) :=
  let ev0 := [InitEvent.load]
  match get_root_graph_uri fg with
  | .error e => .error e
  | .ok root =>
    let ev1 := ev0 ++ [InitEvent.resolveRoot root]
    let g1 := set_inner_edges (fg.innerRows root) init_dot_graph
    let ev2 := ev1 ++ [InitEvent.extractInner root]
    let g2 := set_input_edges (fg.inputRows root) g1
    let ev3 := ev2 ++ [InitEvent.extractInput root]
    let g3 := set_output_edges (fg.outputRows root) g2
    .ok (g3, ev3 ++ [InitEvent.extractOutput root])

/-- The directed edges the inner-edge extractor appends, in row order. -/
def innerEdgeList (rows : List InnerRow) : List (String × String) :=
  rows.map fun r => (r.source_step, r.target_step)

/-- The directed edges the input-edge extractor appends, in row order. -/
def inputEdgeList (rows : List InputRow) : List (String × String) :=
  rows.map fun r => (r.input, r.step)

/-- The directed edges the output-edge extractor appends, in row order. -/
def outputEdgeList (rows : List OutputRow) : List (String × String) :=
  rows.map fun r => (r.step, r.output)

/-- The last attribute write that processing `rows` performs on node `x`
during `_set_inner_edges` (`none` when no row names `x`); within one row the
target write follows the source write. -/
def innerLastWrite (rows : List InnerRow) (x : String) : Option NodeAttrs :=
  rows.foldl
    (fun acc row =>
      if x = row.target_step then some (innerAttrs row.target_label row.target_step)
      else if x = row.source_step then some (innerAttrs row.source_label row.source_step)
      else acc)
    none

/-- Modelled from the spec: the serialized form of one node of the textual
graph-description export (the node name, quoted, on a line of its own).
The Diagram Exporter itself (`pygraphviz.AGraph.to_string`) is external to
the repository; the spec only requires a standard textual notation that is
lossless for graph structure. -/
def nodeLineChars (n : String) : List Char :=
  '"' :: n.data ++ ['"', '\n']

/-- Modelled from the spec: the serialized form of one directed edge of the
textual export (quoted source, an arrow, quoted target, on one line). -/
def edgeLineChars (e : String × String) : List Char :=
  '"' :: e.1.data ++ ['"', '-', '>', '"'] ++ e.2.data ++ ['"', '\n']

/-- Modelled from the spec: the node section of the textual export, one line
per node in insertion order. -/
def serNodes : List String → List Char
  | [] => []
  | n :: ns => nodeLineChars n ++ serNodes ns

/-- Modelled from the spec: the edge section of the textual export, one line
per edge in insertion order. -/
def serEdges : List (String × String) → List Char
  | [] => []
  | e :: es => edgeLineChars e ++ serEdges es

/-- Modelled from the spec: `toTextFormat()` — the whole textual export of
the diagram graph: all node lines followed by all edge lines. -/
def toDot (g : DotGraph) : String :=
  ⟨serNodes g.nodeOrder ++ serEdges g.edges⟩

/-- Reads a quoted name up to the closing quote of the textual export;
returns the name's characters and the remaining input. -/
def readName : List Char → Option (List Char × List Char)
  | [] => none
  | c :: cs =>
    if c = '"' then some ([], cs)
    else (readName cs).map fun p => (c :: p.1, p.2)

/-- Modelled from the spec: a standard reader of the textual graph format,
one unit of fuel per line.  Returns the node names and the edges it read. -/
def parseLines : Nat → List Char → Option (List String × List (String × String))
  | _, [] => some ([], [])
  | 0, _ :: _ => none
  | fuel + 1, c :: cs =>
    if c = '"' then
      match readName cs with
      | none => none
      | some (a, rest) =>
        match rest with
        | '\n' :: rest1 =>
          (parseLines fuel rest1).map fun p => (⟨a⟩ :: p.1, p.2)
        | '-' :: '>' :: '"' :: rest1 =>
          match readName rest1 with
          | none => none
          | some (b, rest2) =>
            match rest2 with
            | '\n' :: rest3 =>
              (parseLines fuel rest3).map fun p => (p.1, ((⟨a⟩ : String), (⟨b⟩ : String)) :: p.2)
            | _ => none
        | _ => none
    else none

/-- Modelled from the spec: re-parsing the textual export with the standard
reader (enough fuel for every line, since each line is at least one
character). -/
def parseDot (s : String) : Option (List String × List (String × String)) :=
  parseLines s.data.length s.data

/-- `CWLViewer.dot`: returns the textual export of the diagram graph and
leaves the graph state as it was (`to_string` does not mutate). -/
def dot (g : DotGraph) : String × DotGraph :=
  (toDot g, g)

/-- Calling `CWLViewer.dot` `n` times in a row, collecting every returned
string and the final graph state. -/
def dotN : Nat → DotGraph → List String × DotGraph
  | 0, g => ([], g)
  | n + 1, g =>
    let p := dot g
    let q := dotN n p.2
    (p.1 :: q.1, q.2)

/-- Modelled from the spec: the label-fallback rule as the spec words it —
"the substring after the last `#`" of the URI, empty when the URI has no
`#`.  Stated only to compare against the implementation's `fragment`. -/
def specLastHashFragment (s : String) : String :=
  if '#' ∈ s.data then ⟨(s.data.reverse.takeWhile fun c => c ≠ '#').reverse⟩ else ""

theorem mem_insertNew_self (k : String) (l : List String) : k ∈ insertNew k l := by
  unfold insertNew
  split
  · assumption
  · simp

theorem mem_insertNew_of_mem {a : String} {l : List String} (k : String) (h : a ∈ l) :
    a ∈ insertNew k l := by
  unfold insertNew
  split
  · exact h
  · simp [h]

theorem insertNew_of_mem {k : String} {l : List String} (h : k ∈ l) :
    insertNew k l = l := by
  simp [insertNew, h]

theorem mem_insertNew_iff {a k : String} {l : List String} :
    a ∈ insertNew k l ↔ a ∈ l ∨ a = k := by
  unfold insertNew
  split
  · rename_i h
    constructor
    · exact Or.inl
    · rintro (ha | rfl) <;> assumption
  · simp

theorem ensureNode_of_some {g : DotGraph} {a : String} {v : NodeAttrs}
    (h : g.nodeAttrs a = some v) : ensureNode g a = g := by
  unfold ensureNode
  rw [h]

theorem ensureNode_isSome {g : DotGraph} {a : String}
    (h : (g.nodeAttrs a).isSome) : ensureNode g a = g := by
  obtain ⟨v, hv⟩ := Option.isSome_iff_exists.mp h
  exact ensureNode_of_some hv

theorem addEdge_of_isSome {g : DotGraph} {a b : String}
    (ha : (g.nodeAttrs a).isSome) (hb : (g.nodeAttrs b).isSome) :
    addEdge g a b = { g with edges := g.edges ++ [(a, b)] } := by
  unfold addEdge
  simp only [ensureNode_isSome ha, ensureNode_isSome hb]

/-- Processing one inner-edge row: both step nodes are created or restyled,
the source-to-target edge is appended, and nothing else changes.  When the
row's source and target coincide, the target write is the later one and
wins. -/
theorem processInnerRow_eq (g : DotGraph) (row : InnerRow) :
    processInnerRow g row =
      { g with
        nodeOrder := insertNew row.target_step (insertNew row.source_step g.nodeOrder)
        nodeAttrs := fun x =>
          if x = row.target_step then some (innerAttrs row.target_label row.target_step)
          else if x = row.source_step then some (innerAttrs row.source_label row.source_step)
          else g.nodeAttrs x
        edges := g.edges ++ [(row.source_step, row.target_step)] } := by
  unfold processInnerRow
  rw [addEdge_of_isSome]
  · simp only [addNode]
  · simp only [addNode]
    split <;> simp
  · simp [addNode]

theorem set_inner_edges_cons (r : InnerRow) (rows : List InnerRow) (g : DotGraph) :
    set_inner_edges (r :: rows) g = set_inner_edges rows (processInnerRow g r) := rfl

theorem set_inner_edges_append (rows1 rows2 : List InnerRow) (g : DotGraph) :
    set_inner_edges (rows1 ++ rows2) g = set_inner_edges rows2 (set_inner_edges rows1 g) := by
  simp [set_inner_edges, List.foldl_append]

theorem set_inner_edges_edges (rows : List InnerRow) (g : DotGraph) :
    (set_inner_edges rows g).edges = g.edges ++ innerEdgeList rows := by
  induction rows generalizing g with
  | nil => simp [set_inner_edges, innerEdgeList]
  | cons r rows ih =>
    rw [set_inner_edges_cons, ih, processInnerRow_eq]
    simp [innerEdgeList]

theorem set_inner_edges_order (rows : List InnerRow) (g : DotGraph) :
    (set_inner_edges rows g).nodeOrder =
      rows.foldl (fun o r => insertNew r.target_step (insertNew r.source_step o))
        g.nodeOrder := by
  induction rows generalizing g with
  | nil => rfl
  | cons r rows ih =>
    rw [set_inner_edges_cons, ih, processInnerRow_eq]
    rfl

theorem set_inner_edges_clusters (rows : List InnerRow) (g : DotGraph) :
    (set_inner_edges rows g).inputsCluster = g.inputsCluster ∧
    (set_inner_edges rows g).inputsClusterAttrs = g.inputsClusterAttrs ∧
    (set_inner_edges rows g).outputsCluster = g.outputsCluster ∧
    (set_inner_edges rows g).outputsClusterAttrs = g.outputsClusterAttrs ∧
    (set_inner_edges rows g).graphAttrs = g.graphAttrs := by
  induction rows generalizing g with
  | nil => exact ⟨rfl, rfl, rfl, rfl, rfl⟩
  | cons r rows ih =>
    rw [set_inner_edges_cons, processInnerRow_eq]
    exact ih _

/-- The single-row attribute update of `_set_inner_edges` only depends on
the accumulated value at the written name. -/
theorem innerLastWrite_step (x : String) (acc : Option NodeAttrs) (row : InnerRow) :
    (if x = row.target_step then some (innerAttrs row.target_label row.target_step)
     else if x = row.source_step then some (innerAttrs row.source_label row.source_step)
     else acc) =
      match (if x = row.target_step then some (innerAttrs row.target_label row.target_step)
             else if x = row.source_step then some (innerAttrs row.source_label row.source_step)
             else none) with
      | some a => some a
      | none => acc := by
  by_cases ht : x = row.target_step
  · simp [ht]
  · simp only [if_neg ht]
    by_cases hs : x = row.source_step
    · simp only [if_pos hs]
    · simp [hs]

theorem innerFold_acc (x : String) (rows : List InnerRow) :
    ∀ acc : Option NodeAttrs,
      rows.foldl
        (fun acc row =>
          if x = row.target_step then some (innerAttrs row.target_label row.target_step)
          else if x = row.source_step then some (innerAttrs row.source_label row.source_step)
          else acc)
        acc =
        match rows.foldl
          (fun acc row =>
            if x = row.target_step then some (innerAttrs row.target_label row.target_step)
            else if x = row.source_step then some (innerAttrs row.source_label row.source_step)
            else acc)
          none with
        | some a => some a
        | none => acc := by
  induction rows with
  | nil =>
    intro acc
    rfl
  | cons r rows ih =>
    intro acc
    simp only [List.foldl_cons]
    conv_lhs => rw [ih]
    conv_rhs => rw [ih]
    rcases h : rows.foldl
      (fun acc row =>
        if x = row.target_step then some (innerAttrs row.target_label row.target_step)
        else if x = row.source_step then some (innerAttrs row.source_label row.source_step)
        else acc)
      none with _ | a
    · rw [h]
      exact innerLastWrite_step x acc r
    · rw [h]

theorem innerLastWrite_cons (r : InnerRow) (rows : List InnerRow) (x : String) :
    innerLastWrite (r :: rows) x =
      match innerLastWrite rows x with
      | some a => some a
      | none =>
        if x = r.target_step then some (innerAttrs r.target_label r.target_step)
        else if x = r.source_step then some (innerAttrs r.source_label r.source_step)
        else none := by
  simp only [innerLastWrite, List.foldl_cons]
  rw [innerFold_acc x rows]

/-- Attribute state after the inner pass: the last write by a row naming the
node, or the previous state when no row names it. -/
theorem set_inner_edges_attrs (rows : List InnerRow) (g : DotGraph) (x : String) :
    (set_inner_edges rows g).nodeAttrs x =
      match innerLastWrite rows x with
      | some a => some a
      | none => g.nodeAttrs x := by
  induction rows generalizing g with
  | nil => simp [set_inner_edges, innerLastWrite]
  | cons r rows ih =>
    rw [set_inner_edges_cons, ih, processInnerRow_eq, innerLastWrite_cons]
    rcases h : innerLastWrite rows x with _ | a
    · exact innerLastWrite_step x (g.nodeAttrs x) r
    · rfl

theorem ensureNode_attrs (g : DotGraph) (a x : String) :
    (ensureNode g a).nodeAttrs x =
      match g.nodeAttrs a with
      | some _ => g.nodeAttrs x
      | none => if x = a then some ⟨none, none, none⟩ else g.nodeAttrs x := by
  unfold ensureNode
  rcases h : g.nodeAttrs a with _ | v
  · simp [addNode]
  · rfl

theorem ensureNode_edges (g : DotGraph) (a : String) :
    (ensureNode g a).edges = g.edges := by
  unfold ensureNode
  rcases h : g.nodeAttrs a with _ | v
  · simp [addNode]
  · rfl

theorem ensureNode_untouched (g : DotGraph) (a : String) :
    (ensureNode g a).inputsCluster = g.inputsCluster ∧
    (ensureNode g a).inputsClusterAttrs = g.inputsClusterAttrs ∧
    (ensureNode g a).outputsCluster = g.outputsCluster ∧
    (ensureNode g a).outputsClusterAttrs = g.outputsClusterAttrs ∧
    (ensureNode g a).graphAttrs = g.graphAttrs := by
  unfold ensureNode
  rcases h : g.nodeAttrs a with _ | v
  · simp [addNode]
  · simp

theorem ensureNode_order (g : DotGraph) (a : String) :
    (ensureNode g a).nodeOrder =
      match g.nodeAttrs a with
      | some _ => g.nodeOrder
      | none => insertNew a g.nodeOrder := by
  unfold ensureNode
  rcases h : g.nodeAttrs a with _ | v
  · simp [addNode]
  · rfl

theorem addEdge_attrs (g : DotGraph) (a b x : String) :
    (addEdge g a b).nodeAttrs x = (ensureNode (ensureNode g a) b).nodeAttrs x := rfl

theorem addEdge_order (g : DotGraph) (a b : String) :
    (addEdge g a b).nodeOrder = (ensureNode (ensureNode g a) b).nodeOrder := rfl

theorem addEdge_edges (g : DotGraph) (a b : String) :
    (addEdge g a b).edges = g.edges ++ [(a, b)] := by
  simp only [addEdge, ensureNode_edges]

theorem addEdge_untouched (g : DotGraph) (a b : String) :
    (addEdge g a b).inputsCluster = g.inputsCluster ∧
    (addEdge g a b).inputsClusterAttrs = g.inputsClusterAttrs ∧
    (addEdge g a b).outputsCluster = g.outputsCluster ∧
    (addEdge g a b).outputsClusterAttrs = g.outputsClusterAttrs ∧
    (addEdge g a b).graphAttrs = g.graphAttrs := by
  have h1 := ensureNode_untouched g a
  have h2 := ensureNode_untouched (ensureNode g a) b
  unfold addEdge
  exact ⟨h2.1.trans h1.1, h2.2.1.trans h1.2.1, h2.2.2.1.trans h1.2.2.1,
    h2.2.2.2.1.trans h1.2.2.2.1, h2.2.2.2.2.trans h1.2.2.2.2⟩

theorem addInputNode_eq (g : DotGraph) (u : String) :
    addInputNode g u =
      { g with
        nodeOrder := insertNew u g.nodeOrder
        nodeAttrs := fun x => if x = u then some (boundaryAttrs u) else g.nodeAttrs x
        inputsCluster := insertNew u g.inputsCluster } := rfl

theorem addOutputNode_eq (g : DotGraph) (u : String) :
    addOutputNode g u =
      { g with
        nodeOrder := insertNew u g.nodeOrder
        nodeAttrs := fun x => if x = u then some (boundaryAttrs u) else g.nodeAttrs x
        outputsCluster := insertNew u g.outputsCluster } := rfl

/-- Attribute state after processing one input-edge row: the input node gets
the boundary styling, the step node is created bare only when it did not yet
exist, and every other node keeps its attributes. -/
theorem processInputRow_attrs (g : DotGraph) (row : InputRow) (x : String) :
    (processInputRow g row).nodeAttrs x =
      if x = row.input then some (boundaryAttrs row.input)
      else if x = row.step then
        match g.nodeAttrs x with
        | some a => some a
        | none => some ⟨none, none, none⟩
      else g.nodeAttrs x := by
  unfold processInputRow
  rw [addEdge_attrs]
  have hin : (addInputNode g row.input).nodeAttrs row.input = some (boundaryAttrs row.input) := by
    rw [addInputNode_eq]
    simp
  rw [ensureNode_of_some hin, ensureNode_attrs, addInputNode_eq]
  by_cases hxi : x = row.input
  · subst hxi
    by_cases hsi : row.step = row.input
    · rcases h : g.nodeAttrs row.step with _ | v <;> simp_all
    · have hsi2 : ¬ row.input = row.step := fun e => hsi e.symm
      rcases h : g.nodeAttrs row.step with _ | v <;> simp_all
  · rcases h : g.nodeAttrs row.step with _ | v <;>
      by_cases hxs : x = row.step <;>
      by_cases hsi : row.step = row.input <;>
      simp_all

/-- Attribute state after processing one output-edge row: symmetric to the
input case, with the ensured node being the step source of the edge. -/
theorem processOutputRow_attrs (g : DotGraph) (row : OutputRow) (x : String) :
    (processOutputRow g row).nodeAttrs x =
      if x = row.output then some (boundaryAttrs row.output)
      else if x = row.step then
        match g.nodeAttrs x with
        | some a => some a
        | none => some ⟨none, none, none⟩
      else g.nodeAttrs x := by
  unfold processOutputRow
  rw [addEdge_attrs]
  have hout : (addOutputNode g row.output).nodeAttrs row.output = some (boundaryAttrs row.output) := by
    rw [addOutputNode_eq]
    simp
  have hb : ensureNode (ensureNode (addOutputNode g row.output) row.step) row.output =
      ensureNode (addOutputNode g row.output) row.step := by
    apply ensureNode_isSome
    rw [ensureNode_attrs]
    rcases h : (addOutputNode g row.output).nodeAttrs row.step with _ | v
    · rw [hout]
      by_cases hos : row.output = row.step <;> simp [hos, hout]
    · rw [hout]
      simp
  rw [hb, ensureNode_attrs, addOutputNode_eq]
  by_cases hxo : x = row.output
  · subst hxo
    by_cases hso : row.step = row.output
    · rcases h : g.nodeAttrs row.step with _ | v <;> simp_all
    · have hso2 : ¬ row.output = row.step := fun e => hso e.symm
      rcases h : g.nodeAttrs row.step with _ | v <;> simp_all
  · rcases h : g.nodeAttrs row.step with _ | v <;>
      by_cases hxs : x = row.step <;>
      by_cases hso : row.step = row.output <;>
      simp_all

theorem foldInsert_mem_mono {α : Type} (f : α → String) (rows : List α)
    {a : String} : ∀ {o : List String}, a ∈ o →
      a ∈ rows.foldl (fun o r => insertNew (f r) o) o := by
  induction rows with
  | nil => exact fun h => h
  | cons r rows ih => exact fun h => ih (mem_insertNew_of_mem _ h)

theorem foldInsert_mem_self {α : Type} (f : α → String) {rows : List α}
    {r : α} (hr : r ∈ rows) (o : List String) :
    f r ∈ rows.foldl (fun o r => insertNew (f r) o) o := by
  induction rows generalizing o with
  | nil => cases hr
  | cons r0 rows ih =>
    rcases List.mem_cons.mp hr with h | h
    · subst h
      exact foldInsert_mem_mono f rows (mem_insertNew_self _ _)
    · exact ih h _

theorem foldInsert_stable {α : Type} (f : α → String) (rows : List α)
    {o : List String} (h : ∀ r ∈ rows, f r ∈ o) :
    rows.foldl (fun o r => insertNew (f r) o) o = o := by
  induction rows with
  | nil => rfl
  | cons r rows ih =>
    simp only [List.foldl_cons]
    rw [insertNew_of_mem (h r (List.mem_cons_self r rows))]
    exact ih fun r0 h0 => h r0 (List.mem_cons_of_mem _ h0)

theorem foldInsert_mem_iff {α : Type} (f : α → String) (rows : List α)
    {n : String} : ∀ {o : List String},
      (n ∈ rows.foldl (fun o r => insertNew (f r) o) o ↔
        n ∈ o ∨ ∃ r ∈ rows, f r = n) := by
  induction rows with
  | nil => simp
  | cons r rows ih =>
    intro o
    simp only [List.foldl_cons]
    rw [ih]
    rw [mem_insertNew_iff]
    constructor
    · rintro ((h | h) | h)
      · exact Or.inl h
      · exact Or.inr ⟨r, List.mem_cons_self r rows, h.symm⟩
      · obtain ⟨r0, hr0, he⟩ := h
        exact Or.inr ⟨r0, List.mem_cons_of_mem _ hr0, he⟩
    · rintro (h | ⟨r0, hr0, he⟩)
      · exact Or.inl (Or.inl h)
      · rcases List.mem_cons.mp hr0 with h0 | h0
        · subst h0
          exact Or.inl (Or.inr he.symm)
        · exact Or.inr ⟨r0, h0, he⟩

theorem innerOrder_mem_mono (rows : List InnerRow) {a : String} :
    ∀ {o : List String}, a ∈ o →
      a ∈ rows.foldl (fun o r => insertNew r.target_step (insertNew r.source_step o)) o := by
  induction rows with
  | nil => exact fun h => h
  | cons r rows ih =>
    exact fun h => ih (mem_insertNew_of_mem _ (mem_insertNew_of_mem _ h))

theorem innerOrder_mem_row (rows : List InnerRow) {r : InnerRow} (hr : r ∈ rows)
    (o : List String) :
    r.source_step ∈
        rows.foldl (fun o r => insertNew r.target_step (insertNew r.source_step o)) o ∧
      r.target_step ∈
        rows.foldl (fun o r => insertNew r.target_step (insertNew r.source_step o)) o := by
  induction rows generalizing o with
  | nil => cases hr
  | cons r0 rows ih =>
    rcases List.mem_cons.mp hr with h | h
    · subst h
      refine ⟨innerOrder_mem_mono rows ?_, innerOrder_mem_mono rows ?_⟩
      · exact mem_insertNew_of_mem _ (mem_insertNew_self _ _)
      · exact mem_insertNew_self _ _
    · exact ih h _

theorem innerOrder_stable (rows : List InnerRow) {o : List String}
    (h : ∀ r ∈ rows, r.source_step ∈ o ∧ r.target_step ∈ o) :
    rows.foldl (fun o r => insertNew r.target_step (insertNew r.source_step o)) o = o := by
  induction rows with
  | nil => rfl
  | cons r rows ih =>
    simp only [List.foldl_cons]
    rw [insertNew_of_mem (h r (List.mem_cons_self r rows)).1,
      insertNew_of_mem (h r (List.mem_cons_self r rows)).2]
    exact ih fun r0 h0 => h r0 (List.mem_cons_of_mem _ h0)

/-- Running the inner-edge extractor a second time with the same rows leaves
the node order, the node attributes, the clusters and the graph attributes
exactly as after the first run, and appends the extractor's edges once
more. -/
theorem set_inner_edges_idem (rows : List InnerRow) (g : DotGraph) :
    set_inner_edges rows (set_inner_edges rows g) =
      { set_inner_edges rows g with
        edges := (set_inner_edges rows g).edges ++ innerEdgeList rows } := by
  apply DotGraph.ext
  · rw [set_inner_edges_order]
    have hmem : ∀ r ∈ rows,
        r.source_step ∈ (set_inner_edges rows g).nodeOrder ∧
          r.target_step ∈ (set_inner_edges rows g).nodeOrder := by
      intro r hr
      rw [set_inner_edges_order]
      exact innerOrder_mem_row rows hr g.nodeOrder
    exact innerOrder_stable rows hmem
  · funext x
    rw [set_inner_edges_attrs]
    rcases h : innerLastWrite rows x with _ | a
    · rw [set_inner_edges_attrs, h]
    · show some a = (set_inner_edges rows g).nodeAttrs x
      rw [set_inner_edges_attrs, h]
  · rw [set_inner_edges_edges]
  · exact (set_inner_edges_clusters rows _).1
  · exact (set_inner_edges_clusters rows _).2.1
  · exact (set_inner_edges_clusters rows _).2.2.1
  · exact (set_inner_edges_clusters rows _).2.2.2.1
  · exact (set_inner_edges_clusters rows _).2.2.2.2

theorem processInputRow_edges (g : DotGraph) (row : InputRow) :
    (processInputRow g row).edges = g.edges ++ [(row.input, row.step)] := by
  unfold processInputRow
  rw [addEdge_edges]
  rfl

theorem processInputRow_inputsCluster (g : DotGraph) (row : InputRow) :
    (processInputRow g row).inputsCluster = insertNew row.input g.inputsCluster := by
  unfold processInputRow
  rw [(addEdge_untouched _ _ _).1]
  rfl

theorem processInputRow_untouched (g : DotGraph) (row : InputRow) :
    (processInputRow g row).inputsClusterAttrs = g.inputsClusterAttrs ∧
    (processInputRow g row).outputsCluster = g.outputsCluster ∧
    (processInputRow g row).outputsClusterAttrs = g.outputsClusterAttrs ∧
    (processInputRow g row).graphAttrs = g.graphAttrs := by
  unfold processInputRow
  have h := addEdge_untouched (addInputNode g row.input) row.input row.step
  exact ⟨h.2.1, h.2.2.1, h.2.2.2.1, h.2.2.2.2⟩

theorem ensureNode_order_mono (g : DotGraph) (a : String) {x : String}
    (h : x ∈ g.nodeOrder) : x ∈ (ensureNode g a).nodeOrder := by
  rw [ensureNode_order]
  split
  · exact h
  · exact mem_insertNew_of_mem _ h

theorem addEdge_order_mono (g : DotGraph) (a b : String) {x : String}
    (h : x ∈ g.nodeOrder) : x ∈ (addEdge g a b).nodeOrder := by
  rw [addEdge_order]
  exact ensureNode_order_mono _ _ (ensureNode_order_mono _ _ h)

theorem processInputRow_order_mono (g : DotGraph) (row : InputRow) {x : String}
    (h : x ∈ g.nodeOrder) : x ∈ (processInputRow g row).nodeOrder := by
  unfold processInputRow
  exact addEdge_order_mono _ _ _ (mem_insertNew_of_mem _ h)

theorem processInputRow_input_order (g : DotGraph) (row : InputRow) :
    row.input ∈ (processInputRow g row).nodeOrder := by
  unfold processInputRow
  exact addEdge_order_mono _ _ _ (mem_insertNew_self _ _)

theorem processInputRow_step_order (g : DotGraph) (row : InputRow)
    (h : g.nodeAttrs row.step = none) :
    row.step ∈ (processInputRow g row).nodeOrder := by
  by_cases hsi : row.step = row.input
  · rw [hsi]
    exact processInputRow_input_order g row
  · unfold processInputRow
    rw [addEdge_order]
    have hin : ensureNode (addInputNode g row.input) row.input = addInputNode g row.input := by
      apply ensureNode_isSome
      rw [addInputNode_eq]
      simp
    rw [hin, ensureNode_order]
    have hstep : (addInputNode g row.input).nodeAttrs row.step = none := by
      rw [addInputNode_eq]
      simp [hsi, h]
    rw [hstep]
    exact mem_insertNew_self _ _

theorem inputFold_edges (rows : List InputRow) :
    ∀ g : DotGraph,
      (rows.foldl processInputRow g).edges = g.edges ++ inputEdgeList rows := by
  induction rows with
  | nil =>
    intro g
    simp [inputEdgeList]
  | cons r rows ih =>
    intro g
    simp only [List.foldl_cons]
    rw [ih, processInputRow_edges]
    simp [inputEdgeList]

theorem inputFold_inputsCluster (rows : List InputRow) :
    ∀ g : DotGraph,
      (rows.foldl processInputRow g).inputsCluster =
        rows.foldl (fun o r => insertNew (InputRow.input r) o) g.inputsCluster := by
  induction rows with
  | nil => exact fun g => rfl
  | cons r rows ih =>
    intro g
    simp only [List.foldl_cons]
    rw [ih, processInputRow_inputsCluster]

theorem inputFold_untouched (rows : List InputRow) :
    ∀ g : DotGraph,
      (rows.foldl processInputRow g).inputsClusterAttrs = g.inputsClusterAttrs ∧
      (rows.foldl processInputRow g).outputsCluster = g.outputsCluster ∧
      (rows.foldl processInputRow g).outputsClusterAttrs = g.outputsClusterAttrs ∧
      (rows.foldl processInputRow g).graphAttrs = g.graphAttrs := by
  induction rows with
  | nil => exact fun g => ⟨rfl, rfl, rfl, rfl⟩
  | cons r rows ih =>
    intro g
    simp only [List.foldl_cons]
    have h1 := ih (processInputRow g r)
    have h2 := processInputRow_untouched g r
    exact ⟨h1.1.trans h2.1, h1.2.1.trans h2.2.1, h1.2.2.1.trans h2.2.2.1,
      h1.2.2.2.trans h2.2.2.2⟩

theorem inputFold_boundary_preserve (rows : List InputRow) {x : String} :
    ∀ g : DotGraph, g.nodeAttrs x = some (boundaryAttrs x) →
      (rows.foldl processInputRow g).nodeAttrs x = some (boundaryAttrs x) := by
  induction rows with
  | nil => exact fun g h => h
  | cons r rows ih =>
    intro g h
    simp only [List.foldl_cons]
    apply ih
    rw [processInputRow_attrs]
    by_cases hxi : x = r.input
    · subst hxi
      simp
    · by_cases hxs : x = r.step <;> simp_all

theorem inputFold_boundary (rows : List InputRow) {r : InputRow} (hr : r ∈ rows) :
    ∀ g : DotGraph,
      (rows.foldl processInputRow g).nodeAttrs r.input = some (boundaryAttrs r.input) := by
  induction rows with
  | nil => cases hr
  | cons r0 rows ih =>
    intro g
    simp only [List.foldl_cons]
    rcases List.mem_cons.mp hr with h | h
    · subst h
      apply inputFold_boundary_preserve
      rw [processInputRow_attrs]
      simp
    · exact ih h _

theorem inputFold_isSome (rows : List InputRow) {x : String} :
    ∀ g : DotGraph, (g.nodeAttrs x).isSome →
      ((rows.foldl processInputRow g).nodeAttrs x).isSome := by
  induction rows with
  | nil => exact fun g h => h
  | cons r rows ih =>
    intro g h
    simp only [List.foldl_cons]
    apply ih
    rw [processInputRow_attrs]
    obtain ⟨v, hv⟩ := Option.isSome_iff_exists.mp h
    by_cases hxi : x = r.input
    · simp [hxi]
    · by_cases hxs : x = r.step <;> simp_all

theorem inputFold_step_isSome (rows : List InputRow) {r : InputRow} (hr : r ∈ rows) :
    ∀ g : DotGraph, ((rows.foldl processInputRow g).nodeAttrs r.step).isSome := by
  induction rows with
  | nil => cases hr
  | cons r0 rows ih =>
    intro g
    simp only [List.foldl_cons]
    rcases List.mem_cons.mp hr with h | h
    · subst h
      apply inputFold_isSome
      rw [processInputRow_attrs]
      by_cases hsi : r.step = r.input
      · simp [hsi]
      · rcases hg : g.nodeAttrs r.step with _ | v <;> simp [hsi, hg]
    · exact ih h _

theorem inputFold_attrs_untouched (rows : List InputRow) {x : String}
    (hrows : ∀ r ∈ rows, r.input ≠ x ∧ r.step ≠ x) :
    ∀ g : DotGraph, (rows.foldl processInputRow g).nodeAttrs x = g.nodeAttrs x := by
  induction rows with
  | nil => exact fun g => rfl
  | cons r rows ih =>
    intro g
    simp only [List.foldl_cons]
    have hr := hrows r (List.mem_cons_self r rows)
    rw [ih (fun r0 h0 => hrows r0 (List.mem_cons_of_mem _ h0)), processInputRow_attrs]
    have h1 : ¬ x = r.input := fun e => hr.1 e.symm
    have h2 : ¬ x = r.step := fun e => hr.2 e.symm
    simp [h1, h2]

theorem inputFold_preserve_some (rows : List InputRow) {x : String} {a : NodeAttrs}
    (hrows : ∀ r ∈ rows, r.input ≠ x) :
    ∀ g : DotGraph, g.nodeAttrs x = some a →
      (rows.foldl processInputRow g).nodeAttrs x = some a := by
  induction rows with
  | nil => exact fun g h => h
  | cons r rows ih =>
    intro g h
    simp only [List.foldl_cons]
    apply ih (fun r0 h0 => hrows r0 (List.mem_cons_of_mem _ h0))
    rw [processInputRow_attrs]
    have hxi : ¬ x = r.input := fun e => hrows r (List.mem_cons_self r rows) e.symm
    by_cases hxs : x = r.step <;> simp_all

theorem inputFold_order_mono (rows : List InputRow) {x : String} :
    ∀ g : DotGraph, x ∈ g.nodeOrder → x ∈ (rows.foldl processInputRow g).nodeOrder := by
  induction rows with
  | nil => exact fun g h => h
  | cons r rows ih =>
    intro g h
    simp only [List.foldl_cons]
    exact ih _ (processInputRow_order_mono g r h)

theorem inputFold_input_order (rows : List InputRow) {r : InputRow} (hr : r ∈ rows) :
    ∀ g : DotGraph, r.input ∈ (rows.foldl processInputRow g).nodeOrder := by
  induction rows with
  | nil => cases hr
  | cons r0 rows ih =>
    intro g
    simp only [List.foldl_cons]
    rcases List.mem_cons.mp hr with h | h
    · subst h
      exact inputFold_order_mono rows _ (processInputRow_input_order g r)
    · exact ih h _

theorem inputFold_implicit (rows : List InputRow) {x : String}
    (hni : ∀ r ∈ rows, r.input ≠ x) (hstep : ∃ r ∈ rows, r.step = x) :
    ∀ g : DotGraph, g.nodeAttrs x = none →
      (rows.foldl processInputRow g).nodeAttrs x = some ⟨none, none, none⟩ ∧
        x ∈ (rows.foldl processInputRow g).nodeOrder := by
  induction rows with
  | nil =>
    obtain ⟨r, hr, _⟩ := hstep
    cases hr
  | cons r rows ih =>
    intro g h
    simp only [List.foldl_cons]
    have hxi : ¬ x = r.input := fun e => hni r (List.mem_cons_self r rows) e.symm
    by_cases hxs : r.step = x
    · constructor
      · apply inputFold_preserve_some rows
          (fun r0 h0 => hni r0 (List.mem_cons_of_mem _ h0))
        rw [processInputRow_attrs]
        have hxs2 : x = r.step := hxs.symm
        have hsr : ¬ r.step = r.input := fun e => hxi (hxs2.trans e)
        have hrs : g.nodeAttrs r.step = none := by rw [← hxs2]; exact h
        simp [hxi, hxs2, hsr, hrs]
      · have hrs : g.nodeAttrs r.step = none := by rw [hxs]; exact h
        exact inputFold_order_mono rows _ (hxs ▸ processInputRow_step_order g r hrs)
    · have hstep2 : ∃ r0 ∈ rows, r0.step = x := by
        obtain ⟨r0, hr0, he⟩ := hstep
        rcases List.mem_cons.mp hr0 with h0 | h0
        · exact absurd (h0 ▸ he) hxs
        · exact ⟨r0, h0, he⟩
      apply ih (fun r0 h0 => hni r0 (List.mem_cons_of_mem _ h0)) hstep2
      rw [processInputRow_attrs]
      have hxs2 : ¬ x = r.step := fun e => hxs e.symm
      simp [hxi, hxs2, h]

theorem set_input_edges_eq_fold (rows : List InputRow) (g : DotGraph) :
    set_input_edges rows g =
      rows.foldl processInputRow
        { g with inputsClusterAttrs := some inputsClusterDecoration } := rfl

theorem set_input_edges_edges (rows : List InputRow) (g : DotGraph) :
    (set_input_edges rows g).edges = g.edges ++ inputEdgeList rows := by
  rw [set_input_edges_eq_fold, inputFold_edges]

theorem set_input_edges_clusterAttrs (rows : List InputRow) (g : DotGraph) :
    (set_input_edges rows g).inputsClusterAttrs = some inputsClusterDecoration := by
  rw [set_input_edges_eq_fold]
  exact (inputFold_untouched rows _).1

theorem inputFold_stable (rows : List InputRow) :
    ∀ g : DotGraph,
      (∀ r ∈ rows, g.nodeAttrs r.input = some (boundaryAttrs r.input) ∧
        r.input ∈ g.nodeOrder ∧ r.input ∈ g.inputsCluster ∧
        (g.nodeAttrs r.step).isSome) →
      rows.foldl processInputRow g = { g with edges := g.edges ++ inputEdgeList rows } := by
  induction rows with
  | nil =>
    intro g _
    apply DotGraph.ext <;> simp [inputEdgeList]
  | cons r rows ih =>
    intro g hyp
    have hr := hyp r (List.mem_cons_self r rows)
    have hrow : processInputRow g r = { g with edges := g.edges ++ [(r.input, r.step)] } := by
      unfold processInputRow
      have haddin : addInputNode g r.input = g := by
        apply DotGraph.ext
        · exact insertNew_of_mem hr.2.1
        · funext x
          by_cases hx : x = r.input
          · subst hx
            rw [addInputNode_eq]
            simp [hr.1]
          · rw [addInputNode_eq]
            simp [hx]
        · rfl
        · exact insertNew_of_mem hr.2.2.1
        · rfl
        · rfl
        · rfl
        · rfl
      rw [haddin]
      exact addEdge_of_isSome (by rw [hr.1]; rfl) hr.2.2.2
    simp only [List.foldl_cons]
    rw [hrow, ih { g with edges := g.edges ++ [(r.input, r.step)] }
      (fun r0 h0 => hyp r0 (List.mem_cons_of_mem _ h0))]
    apply DotGraph.ext <;> simp [inputEdgeList]

/-- Running the input-edge extractor a second time with the same rows leaves
everything except the edge sequence unchanged, and appends its edges once
more. -/
theorem set_input_edges_idem (rows : List InputRow) (g : DotGraph) :
    set_input_edges rows (set_input_edges rows g) =
      { set_input_edges rows g with
        edges := (set_input_edges rows g).edges ++ inputEdgeList rows } := by
  have hattrs1 := set_input_edges_clusterAttrs rows g
  rw [set_input_edges_eq_fold rows (set_input_edges rows g)]
  have hG : { set_input_edges rows g with
      inputsClusterAttrs := some inputsClusterDecoration } = set_input_edges rows g := by
    apply DotGraph.ext <;> first | rfl | exact hattrs1.symm
  rw [hG]
  apply inputFold_stable
  intro r hr
  refine ⟨?_, ?_, ?_, ?_⟩
  · exact inputFold_boundary rows hr _
  · exact inputFold_input_order rows hr _
  · have hmem := foldInsert_mem_self InputRow.input hr
      ({ g with inputsClusterAttrs := some inputsClusterDecoration }).inputsCluster
    rw [set_input_edges_eq_fold, inputFold_inputsCluster]
    exact hmem
  · exact inputFold_step_isSome rows hr _

theorem processOutputRow_edges (g : DotGraph) (row : OutputRow) :
    (processOutputRow g row).edges = g.edges ++ [(row.step, row.output)] := by
  unfold processOutputRow
  rw [addEdge_edges]
  rfl

theorem processOutputRow_outputsCluster (g : DotGraph) (row : OutputRow) :
    (processOutputRow g row).outputsCluster = insertNew row.output g.outputsCluster := by
  unfold processOutputRow
  rw [(addEdge_untouched _ _ _).2.2.1]
  rfl

theorem processOutputRow_untouched (g : DotGraph) (row : OutputRow) :
    (processOutputRow g row).inputsCluster = g.inputsCluster ∧
    (processOutputRow g row).inputsClusterAttrs = g.inputsClusterAttrs ∧
    (processOutputRow g row).outputsClusterAttrs = g.outputsClusterAttrs ∧
    (processOutputRow g row).graphAttrs = g.graphAttrs := by
  unfold processOutputRow
  have h := addEdge_untouched (addOutputNode g row.output) row.step row.output
  exact ⟨h.1, h.2.1, h.2.2.2.1, h.2.2.2.2⟩

theorem processOutputRow_order_mono (g : DotGraph) (row : OutputRow) {x : String}
    (h : x ∈ g.nodeOrder) : x ∈ (processOutputRow g row).nodeOrder := by
  unfold processOutputRow
  exact addEdge_order_mono _ _ _ (mem_insertNew_of_mem _ h)

theorem processOutputRow_output_order (g : DotGraph) (row : OutputRow) :
    row.output ∈ (processOutputRow g row).nodeOrder := by
  unfold processOutputRow
  exact addEdge_order_mono _ _ _ (mem_insertNew_self _ _)

theorem processOutputRow_step_order (g : DotGraph) (row : OutputRow)
    (h : g.nodeAttrs row.step = none) :
    row.step ∈ (processOutputRow g row).nodeOrder := by
  by_cases hso : row.step = row.output
  · rw [hso]
    exact processOutputRow_output_order g row
  · unfold processOutputRow
    rw [addEdge_order]
    apply ensureNode_order_mono
    rw [ensureNode_order]
    have hstep : (addOutputNode g row.output).nodeAttrs row.step = none := by
      rw [addOutputNode_eq]
      simp [hso, h]
    rw [hstep]
    exact mem_insertNew_self _ _

theorem outputFold_edges (rows : List OutputRow) :
    ∀ g : DotGraph,
      (rows.foldl processOutputRow g).edges = g.edges ++ outputEdgeList rows := by
  induction rows with
  | nil =>
    intro g
    simp [outputEdgeList]
  | cons r rows ih =>
    intro g
    simp only [List.foldl_cons]
    rw [ih, processOutputRow_edges]
    simp [outputEdgeList]

theorem outputFold_outputsCluster (rows : List OutputRow) :
    ∀ g : DotGraph,
      (rows.foldl processOutputRow g).outputsCluster =
        rows.foldl (fun o r => insertNew (OutputRow.output r) o) g.outputsCluster := by
  induction rows with
  | nil => exact fun g => rfl
  | cons r rows ih =>
    intro g
    simp only [List.foldl_cons]
    rw [ih, processOutputRow_outputsCluster]

theorem outputFold_untouched (rows : List OutputRow) :
    ∀ g : DotGraph,
      (rows.foldl processOutputRow g).inputsCluster = g.inputsCluster ∧
      (rows.foldl processOutputRow g).inputsClusterAttrs = g.inputsClusterAttrs ∧
      (rows.foldl processOutputRow g).outputsClusterAttrs = g.outputsClusterAttrs ∧
      (rows.foldl processOutputRow g).graphAttrs = g.graphAttrs := by
  induction rows with
  | nil => exact fun g => ⟨rfl, rfl, rfl, rfl⟩
  | cons r rows ih =>
    intro g
    simp only [List.foldl_cons]
    have h1 := ih (processOutputRow g r)
    have h2 := processOutputRow_untouched g r
    exact ⟨h1.1.trans h2.1, h1.2.1.trans h2.2.1, h1.2.2.1.trans h2.2.2.1,
      h1.2.2.2.trans h2.2.2.2⟩

theorem outputFold_boundary_preserve (rows : List OutputRow) {x : String} :
    ∀ g : DotGraph, g.nodeAttrs x = some (boundaryAttrs x) →
      (rows.foldl processOutputRow g).nodeAttrs x = some (boundaryAttrs x) := by
  induction rows with
  | nil => exact fun g h => h
  | cons r rows ih =>
    intro g h
    simp only [List.foldl_cons]
    apply ih
    rw [processOutputRow_attrs]
    by_cases hxo : x = r.output
    · subst hxo
      simp
    · by_cases hxs : x = r.step <;> simp_all

theorem outputFold_boundary (rows : List OutputRow) {r : OutputRow} (hr : r ∈ rows) :
    ∀ g : DotGraph,
      (rows.foldl processOutputRow g).nodeAttrs r.output = some (boundaryAttrs r.output) := by
  induction rows with
  | nil => cases hr
  | cons r0 rows ih =>
    intro g
    simp only [List.foldl_cons]
    rcases List.mem_cons.mp hr with h | h
    · subst h
      apply outputFold_boundary_preserve
      rw [processOutputRow_attrs]
      simp
    · exact ih h _

theorem outputFold_isSome (rows : List OutputRow) {x : String} :
    ∀ g : DotGraph, (g.nodeAttrs x).isSome →
      ((rows.foldl processOutputRow g).nodeAttrs x).isSome := by
  induction rows with
  | nil => exact fun g h => h
  | cons r rows ih =>
    intro g h
    simp only [List.foldl_cons]
    apply ih
    rw [processOutputRow_attrs]
    obtain ⟨v, hv⟩ := Option.isSome_iff_exists.mp h
    by_cases hxo : x = r.output
    · simp [hxo]
    · by_cases hxs : x = r.step <;> simp_all

theorem outputFold_step_isSome (rows : List OutputRow) {r : OutputRow} (hr : r ∈ rows) :
    ∀ g : DotGraph, ((rows.foldl processOutputRow g).nodeAttrs r.step).isSome := by
  induction rows with
  | nil => cases hr
  | cons r0 rows ih =>
    intro g
    simp only [List.foldl_cons]
    rcases List.mem_cons.mp hr with h | h
    · subst h
      apply outputFold_isSome
      rw [processOutputRow_attrs]
      by_cases hso : r.step = r.output
      · simp [hso]
      · rcases hg : g.nodeAttrs r.step with _ | v <;> simp [hso, hg]
    · exact ih h _

theorem outputFold_attrs_untouched (rows : List OutputRow) {x : String}
    (hrows : ∀ r ∈ rows, r.output ≠ x ∧ r.step ≠ x) :
    ∀ g : DotGraph, (rows.foldl processOutputRow g).nodeAttrs x = g.nodeAttrs x := by
  induction rows with
  | nil => exact fun g => rfl
  | cons r rows ih =>
    intro g
    simp only [List.foldl_cons]
    have hr := hrows r (List.mem_cons_self r rows)
    rw [ih (fun r0 h0 => hrows r0 (List.mem_cons_of_mem _ h0)), processOutputRow_attrs]
    have h1 : ¬ x = r.output := fun e => hr.1 e.symm
    have h2 : ¬ x = r.step := fun e => hr.2 e.symm
    simp [h1, h2]

theorem outputFold_preserve_some (rows : List OutputRow) {x : String} {a : NodeAttrs}
    (hrows : ∀ r ∈ rows, r.output ≠ x) :
    ∀ g : DotGraph, g.nodeAttrs x = some a →
      (rows.foldl processOutputRow g).nodeAttrs x = some a := by
  induction rows with
  | nil => exact fun g h => h
  | cons r rows ih =>
    intro g h
    simp only [List.foldl_cons]
    apply ih (fun r0 h0 => hrows r0 (List.mem_cons_of_mem _ h0))
    rw [processOutputRow_attrs]
    have hxo : ¬ x = r.output := fun e => hrows r (List.mem_cons_self r rows) e.symm
    by_cases hxs : x = r.step <;> simp_all

theorem outputFold_order_mono (rows : List OutputRow) {x : String} :
    ∀ g : DotGraph, x ∈ g.nodeOrder → x ∈ (rows.foldl processOutputRow g).nodeOrder := by
  induction rows with
  | nil => exact fun g h => h
  | cons r rows ih =>
    intro g h
    simp only [List.foldl_cons]
    exact ih _ (processOutputRow_order_mono g r h)

theorem outputFold_output_order (rows : List OutputRow) {r : OutputRow} (hr : r ∈ rows) :
    ∀ g : DotGraph, r.output ∈ (rows.foldl processOutputRow g).nodeOrder := by
  induction rows with
  | nil => cases hr
  | cons r0 rows ih =>
    intro g
    simp only [List.foldl_cons]
    rcases List.mem_cons.mp hr with h | h
    · subst h
      exact outputFold_order_mono rows _ (processOutputRow_output_order g r)
    · exact ih h _

theorem outputFold_implicit (rows : List OutputRow) {x : String}
    (hno : ∀ r ∈ rows, r.output ≠ x) (hstep : ∃ r ∈ rows, r.step = x) :
    ∀ g : DotGraph, g.nodeAttrs x = none →
      (rows.foldl processOutputRow g).nodeAttrs x = some ⟨none, none, none⟩ ∧
        x ∈ (rows.foldl processOutputRow g).nodeOrder := by
  induction rows with
  | nil =>
    obtain ⟨r, hr, _⟩ := hstep
    cases hr
  | cons r rows ih =>
    intro g h
    simp only [List.foldl_cons]
    have hxo : ¬ x = r.output := fun e => hno r (List.mem_cons_self r rows) e.symm
    by_cases hxs : r.step = x
    · constructor
      · apply outputFold_preserve_some rows
          (fun r0 h0 => hno r0 (List.mem_cons_of_mem _ h0))
        rw [processOutputRow_attrs]
        have hxs2 : x = r.step := hxs.symm
        have hsr : ¬ r.step = r.output := fun e => hxo (hxs2.trans e)
        have hrs : g.nodeAttrs r.step = none := by rw [← hxs2]; exact h
        simp [hxo, hxs2, hsr, hrs]
      · have hrs : g.nodeAttrs r.step = none := by rw [hxs]; exact h
        exact outputFold_order_mono rows _ (hxs ▸ processOutputRow_step_order g r hrs)
    · have hstep2 : ∃ r0 ∈ rows, r0.step = x := by
        obtain ⟨r0, hr0, he⟩ := hstep
        rcases List.mem_cons.mp hr0 with h0 | h0
        · exact absurd (h0 ▸ he) hxs
        · exact ⟨r0, h0, he⟩
      apply ih (fun r0 h0 => hno r0 (List.mem_cons_of_mem _ h0)) hstep2
      rw [processOutputRow_attrs]
      have hxs2 : ¬ x = r.step := fun e => hxs e.symm
      simp [hxo, hxs2, h]

theorem set_output_edges_eq_fold (rows : List OutputRow) (g : DotGraph) :
    set_output_edges rows g =
      rows.foldl processOutputRow
        { g with outputsClusterAttrs := some outputsClusterDecoration } := rfl

theorem set_output_edges_edges (rows : List OutputRow) (g : DotGraph) :
    (set_output_edges rows g).edges = g.edges ++ outputEdgeList rows := by
  rw [set_output_edges_eq_fold, outputFold_edges]

theorem set_output_edges_clusterAttrs (rows : List OutputRow) (g : DotGraph) :
    (set_output_edges rows g).outputsClusterAttrs = some outputsClusterDecoration := by
  rw [set_output_edges_eq_fold]
  exact (outputFold_untouched rows _).2.2.1

theorem outputFold_stable (rows : List OutputRow) :
    ∀ g : DotGraph,
      (∀ r ∈ rows, g.nodeAttrs r.output = some (boundaryAttrs r.output) ∧
        r.output ∈ g.nodeOrder ∧ r.output ∈ g.outputsCluster ∧
        (g.nodeAttrs r.step).isSome) →
      rows.foldl processOutputRow g = { g with edges := g.edges ++ outputEdgeList rows } := by
  induction rows with
  | nil =>
    intro g _
    apply DotGraph.ext <;> simp [outputEdgeList]
  | cons r rows ih =>
    intro g hyp
    have hr := hyp r (List.mem_cons_self r rows)
    have hrow : processOutputRow g r = { g with edges := g.edges ++ [(r.step, r.output)] } := by
      unfold processOutputRow
      have haddout : addOutputNode g r.output = g := by
        apply DotGraph.ext
        · exact insertNew_of_mem hr.2.1
        · funext x
          by_cases hx : x = r.output
          · subst hx
            rw [addOutputNode_eq]
            simp [hr.1]
          · rw [addOutputNode_eq]
            simp [hx]
        · rfl
        · rfl
        · rfl
        · exact insertNew_of_mem hr.2.2.1
        · rfl
        · rfl
      rw [haddout]
      exact addEdge_of_isSome hr.2.2.2 (by rw [hr.1]; rfl)
    simp only [List.foldl_cons]
    rw [hrow, ih { g with edges := g.edges ++ [(r.step, r.output)] }
      (fun r0 h0 => hyp r0 (List.mem_cons_of_mem _ h0))]
    apply DotGraph.ext <;> simp [outputEdgeList]

/-- Running the output-edge extractor a second time with the same rows
leaves everything except the edge sequence unchanged, and appends its edges
once more. -/
theorem set_output_edges_idem (rows : List OutputRow) (g : DotGraph) :
    set_output_edges rows (set_output_edges rows g) =
      { set_output_edges rows g with
        edges := (set_output_edges rows g).edges ++ outputEdgeList rows } := by
  have hattrs1 := set_output_edges_clusterAttrs rows g
  rw [set_output_edges_eq_fold rows (set_output_edges rows g)]
  have hG : { set_output_edges rows g with
      outputsClusterAttrs := some outputsClusterDecoration } = set_output_edges rows g := by
    apply DotGraph.ext <;> first | rfl | exact hattrs1.symm
  rw [hG]
  apply outputFold_stable
  intro r hr
  refine ⟨?_, ?_, ?_, ?_⟩
  · exact outputFold_boundary rows hr _
  · exact outputFold_output_order rows hr _
  · have hmem := foldInsert_mem_self OutputRow.output hr
      ({ g with outputsClusterAttrs := some outputsClusterDecoration }).outputsCluster
    rw [set_output_edges_eq_fold, outputFold_outputsCluster]
    exact hmem
  · exact outputFold_step_isSome rows hr _

theorem readName_spec (n : List Char) (rest : List Char) (h : '"' ∉ n) :
    readName (n ++ '"' :: rest) = some (n, rest) := by
  induction n with
  | nil => simp [readName]
  | cons c cs ih =>
    have hc : ¬ c = '"' := fun e => h (e ▸ List.mem_cons_self c cs)
    have hcs : '"' ∉ cs := fun hm => h (List.mem_cons_of_mem _ hm)
    simp [readName, hc, ih hcs]

theorem serNodes_length_ge (ns : List String) : ns.length ≤ (serNodes ns).length := by
  induction ns with
  | nil => simp [serNodes]
  | cons n ns ih =>
    simp only [serNodes, nodeLineChars, List.length_cons, List.length_append]
    simp at *
    omega

theorem serEdges_length_ge (es : List (String × String)) :
    es.length ≤ (serEdges es).length := by
  induction es with
  | nil => simp [serEdges]
  | cons e es ih =>
    simp only [serEdges, edgeLineChars, List.length_cons, List.length_append]
    simp at *
    omega

theorem parse_serEdges (es : List (String × String))
    (hq : ∀ e ∈ es, '"' ∉ e.1.data ∧ '"' ∉ e.2.data) :
    ∀ fuel, es.length ≤ fuel → parseLines fuel (serEdges es) = some ([], es) := by
  induction es with
  | nil =>
    intro fuel _
    rcases fuel with _ | f <;> rfl
  | cons e es ih =>
    intro fuel hf
    rcases fuel with _ | f
    · simp at hf
    · have hq1 := (hq e (List.mem_cons_self e es)).1
      have hq2 := (hq e (List.mem_cons_self e es)).2
      have hrec := ih (fun x hx => hq x (List.mem_cons_of_mem _ hx)) f
        (by simpa using hf)
      show parseLines (f + 1) (edgeLineChars e ++ serEdges es) = some ([], e :: es)
      simp only [edgeLineChars, List.cons_append, List.append_assoc, List.nil_append]
      simp only [parseLines, if_pos rfl]
      rw [readName_spec _ _ hq1]
      simp only []
      rw [readName_spec _ _ hq2]
      simp only []
      rw [hrec]
      rfl

theorem parse_serNodes (ns : List String) (hq : ∀ n ∈ ns, '"' ∉ n.data)
    (tail : List Char) (P1 : List String) (P2 : List (String × String)) :
    ∀ fuel, parseLines fuel tail = some (P1, P2) →
      parseLines (ns.length + fuel) (serNodes ns ++ tail) = some (ns ++ P1, P2) := by
  induction ns with
  | nil =>
    intro fuel h
    simpa [serNodes] using h
  | cons n ns ih =>
    intro fuel h
    have hlen : (n :: ns).length + fuel = (ns.length + fuel) + 1 := by
      simp [List.length_cons]
      omega
    rw [hlen]
    show parseLines ((ns.length + fuel) + 1) ((nodeLineChars n ++ serNodes ns) ++ tail) =
      some ((n :: ns) ++ P1, P2)
    simp only [nodeLineChars, List.cons_append, List.append_assoc, List.nil_append]
    simp only [parseLines, if_pos rfl]
    rw [readName_spec _ _ (hq n (List.mem_cons_self n ns))]
    simp only []
    rw [ih (fun x hx => hq x (List.mem_cons_of_mem _ hx)) fuel h]
    rfl

/-- Round trip of the textual export: the standard reader recovers exactly
the node list and the edge list from the serialized graph, provided no name
contains the quote delimiter. -/
theorem parseDot_toDot (g : DotGraph)
    (hn : ∀ n ∈ g.nodeOrder, '"' ∉ n.data)
    (he : ∀ e ∈ g.edges, '"' ∉ e.1.data ∧ '"' ∉ e.2.data) :
    parseDot (toDot g) = some (g.nodeOrder, g.edges) := by
  unfold parseDot toDot
  have hlen1 := serNodes_length_ge g.nodeOrder
  have hlen2 := serEdges_length_ge g.edges
  obtain ⟨k, hk, hk2⟩ : ∃ k,
      (String.mk (serNodes g.nodeOrder ++ serEdges g.edges)).data.length =
        g.nodeOrder.length + k ∧ g.edges.length ≤ k := by
    refine ⟨(serNodes g.nodeOrder).length - g.nodeOrder.length + (serEdges g.edges).length,
      ?_, ?_⟩
    · show (serNodes g.nodeOrder ++ serEdges g.edges).length = _
      rw [List.length_append]
      omega
    · omega
  rw [hk]
  have h1 := parse_serNodes g.nodeOrder hn (serEdges g.edges) [] g.edges k
    (parse_serEdges g.edges he k hk2)
  simpa using h1

theorem fragAux_no_hash (l : List Char) (h : '#' ∉ l) : fragAux l = [] := by
  induction l with
  | nil => rfl
  | cons c cs ih =>
    have hc : ¬ c = '#' := fun e => h (e ▸ List.mem_cons_self c cs)
    have hcs : '#' ∉ cs := fun hm => h (List.mem_cons_of_mem _ hm)
    simp [fragAux, hc, ih hcs]

theorem fragment_no_hash (s : String) (h : '#' ∉ s.data) : fragment s = "" := by
  unfold fragment
  rw [fragAux_no_hash _ h]

theorem fragAux_first_hash (pre post : List Char) (h : '#' ∉ pre) :
    fragAux (pre ++ '#' :: post) = post := by
  induction pre with
  | nil => simp [fragAux]
  | cons c cs ih =>
    have hc : ¬ c = '#' := fun e => h (e ▸ List.mem_cons_self c cs)
    have hcs : '#' ∉ cs := fun hm => h (List.mem_cons_of_mem _ hm)
    simp [fragAux, hc, ih hcs]

theorem fragment_first_hash (pre post : List Char) (h : '#' ∉ pre) :
    fragment ⟨pre ++ '#' :: post⟩ = ⟨post⟩ := by
  unfold fragment
  rw [show (String.mk (pre ++ '#' :: post)).data = pre ++ '#' :: post from rfl,
    fragAux_first_hash pre post h]

theorem innerLastWrite_none (rows : List InnerRow) {s : String}
    (h : ∀ r ∈ rows, r.source_step ≠ s ∧ r.target_step ≠ s) :
    innerLastWrite rows s = none := by
  induction rows with
  | nil => rfl
  | cons r rows ih =>
    rw [innerLastWrite_cons, ih (fun r0 h0 => h r0 (List.mem_cons_of_mem _ h0))]
    have hr := h r (List.mem_cons_self r rows)
    have h1 : ¬ s = r.target_step := fun e => hr.2 e.symm
    have h2 : ¬ s = r.source_step := fun e => hr.1 e.symm
    simp [h1, h2]

/-- The inputs cluster of the fully built diagram consists exactly of the
input URIs of the input-edge rows. -/
theorem builtGraph_inputsCluster (fg : FactGraph) (w : String) :
    (builtGraph fg w).inputsCluster =
      (fg.inputRows w).foldl (fun o r => insertNew (InputRow.input r) o) [] := by
  unfold builtGraph
  rw [set_output_edges_eq_fold, (outputFold_untouched _ _).1]
  show (set_input_edges (fg.inputRows w)
      (set_inner_edges (fg.innerRows w) init_dot_graph)).inputsCluster = _
  rw [set_input_edges_eq_fold, inputFold_inputsCluster]
  show List.foldl (fun o r => insertNew (InputRow.input r) o)
    (set_inner_edges (fg.innerRows w) init_dot_graph).inputsCluster (fg.inputRows w) = _
  rw [(set_inner_edges_clusters _ _).1]
  rfl

/-- The outputs cluster of the fully built diagram consists exactly of the
output URIs of the output-edge rows. -/
theorem builtGraph_outputsCluster (fg : FactGraph) (w : String) :
    (builtGraph fg w).outputsCluster =
      (fg.outputRows w).foldl (fun o r => insertNew (OutputRow.output r) o) [] := by
  unfold builtGraph
  rw [set_output_edges_eq_fold, outputFold_outputsCluster]
  show List.foldl (fun o r => insertNew (OutputRow.output r) o)
    (set_input_edges (fg.inputRows w)
      (set_inner_edges (fg.innerRows w) init_dot_graph)).outputsCluster
    (fg.outputRows w) = _
  rw [set_input_edges_eq_fold, (inputFold_untouched _ _).2.1]
  show List.foldl (fun o r => insertNew (OutputRow.output r) o)
    (set_inner_edges (fg.innerRows w) init_dot_graph).outputsCluster
    (fg.outputRows w) = _
  rw [(set_inner_edges_clusters _ _).2.2.1]
  rfl

/-- The edge list of the fully built diagram: inner edges, then input edges,
then output edges, in pass order. -/
theorem builtGraph_edges (fg : FactGraph) (w : String) :
    (builtGraph fg w).edges =
      (innerEdgeList (fg.innerRows w) ++ inputEdgeList (fg.inputRows w)) ++
        outputEdgeList (fg.outputRows w) := by
  unfold builtGraph
  rw [set_output_edges_edges, set_input_edges_edges, set_inner_edges_edges]
  rfl

/-- C1, counterexample to the claim as stated: for an inner-edge row whose
declared source label is the empty string, the code uses the empty declared
label verbatim (`is not None` check), so the created node's label is `""`
and not the URI fragment `"s1"` the claim requires. -/
theorem C1_counterexample :
    (set_inner_edges [⟨"a#s1", some "", "a#s2", none⟩] init_dot_graph).nodeAttrs "a#s1" =
      some ⟨some "lightgoldenrodyellow", some "filled", some ""⟩ ∧
    fragment "a#s1" = "s1" ∧ ("" : String) ≠ "s1" := by
  refine ⟨by decide, by decide, by decide⟩

/-- C1 (amended): for every inner-edge row, the node created for the source
(and for the target) step carries the declared label exactly when the query
returned a non-null value — including when that value is the empty string —
and otherwise carries the fragment portion of the step URI.  The attribute
state is read right after the row is processed (a later row writing the same
step URI may overwrite it); when a row's source and target coincide the
target write is the one that remains. -/
theorem C1_inner_label_policy (g : DotGraph) (rows : List InnerRow) (row : InnerRow) :
    (∀ l s, innerLabel (some l) s = l) ∧
    (∀ s, innerLabel none s = fragment s) ∧
    (set_inner_edges (rows ++ [row]) g).nodeAttrs row.target_step =
      some ⟨some "lightgoldenrodyellow", some "filled",
        some (innerLabel row.target_label row.target_step)⟩ ∧
    (row.source_step ≠ row.target_step →
      (set_inner_edges (rows ++ [row]) g).nodeAttrs row.source_step =
        some ⟨some "lightgoldenrodyellow", some "filled",
          some (innerLabel row.source_label row.source_step)⟩) := by
  refine ⟨fun l s => rfl, fun s => rfl, ?_, ?_⟩
  · rw [set_inner_edges_append]
    show (processInnerRow (set_inner_edges rows g) row).nodeAttrs row.target_step = _
    rw [processInnerRow_eq]
    simp [innerAttrs]
  · intro hne
    rw [set_inner_edges_append]
    show (processInnerRow (set_inner_edges rows g) row).nodeAttrs row.source_step = _
    rw [processInnerRow_eq]
    simp [innerAttrs, hne]

/-- C1 witness: concrete run of the amended statement, showing a declared
label `"lbl"` used verbatim on the source node and the fragment fallback on
the unlabeled target node. -/
theorem C1_witness :
    (set_inner_edges ([] ++ [⟨"a#s1", some "lbl", "a#s2", none⟩])
        init_dot_graph).nodeAttrs "a#s1" =
      some ⟨some "lightgoldenrodyellow", some "filled", some "lbl"⟩ ∧
    (set_inner_edges ([] ++ [⟨"a#s1", some "lbl", "a#s2", none⟩])
        init_dot_graph).nodeAttrs "a#s2" =
      some ⟨some "lightgoldenrodyellow", some "filled", some "s2"⟩ :=
  ⟨(C1_inner_label_policy init_dot_graph [] ⟨"a#s1", some "lbl", "a#s2", none⟩).2.2.2
      (by decide),
    (C1_inner_label_policy init_dot_graph [] ⟨"a#s1", some "lbl", "a#s2", none⟩).2.2.1⟩

/-- C2: root resolution returns the workflow identifier of the first result
row whenever the root query yields at least one row; on zero rows it fails
with the root-not-found error and viewer construction produces no diagram. -/
theorem C2_root_resolution (fg : FactGraph) :
    (∀ w rest, fg.rootRows = w :: rest → get_root_graph_uri fg = .ok w) ∧
    (fg.rootRows = [] →
      get_root_graph_uri fg = .error .rootNotFound ∧
        CWLViewer_init fg = .error .rootNotFound) := by
  constructor
  · intro w rest h
    unfold get_root_graph_uri
    rw [h]
  · intro h
    unfold CWLViewer_init get_root_graph_uri
    rw [h]
    exact ⟨rfl, rfl⟩

/-- C2 witness: a fact graph whose root query returns one row resolves to
that row's workflow, and one returning zero rows fails without a diagram. -/
theorem C2_witness :
    get_root_graph_uri ⟨["w"], fun _ => [], fun _ => [], fun _ => []⟩ = .ok "w" ∧
    get_root_graph_uri ⟨[], fun _ => [], fun _ => [], fun _ => []⟩ =
      .error .rootNotFound ∧
    CWLViewer_init ⟨[], fun _ => [], fun _ => [], fun _ => []⟩ =
      .error .rootNotFound :=
  ⟨(C2_root_resolution ⟨["w"], fun _ => [], fun _ => [], fun _ => []⟩).1 "w" [] rfl,
    ((C2_root_resolution ⟨[], fun _ => [], fun _ => [], fun _ => []⟩).2 rfl).1,
    ((C2_root_resolution ⟨[], fun _ => [], fun _ => [], fun _ => []⟩).2 rfl).2⟩

/-- C5: for every fact graph, root URI and starting graph state, running any
one of the three extractors twice with identical inputs yields node order,
node attributes, clusters and graph attributes identical to running it once,
while the edge sequence gains that extractor's edges a second time (each run
appends them once, so after two runs each extracted edge occurs twice). -/
theorem C5_extractor_idempotence (fg : FactGraph) (root : String) (g : DotGraph) :
    (set_inner_edges (fg.innerRows root) (set_inner_edges (fg.innerRows root) g) =
      { set_inner_edges (fg.innerRows root) g with
        edges := (set_inner_edges (fg.innerRows root) g).edges ++
          innerEdgeList (fg.innerRows root) } ∧
     (set_inner_edges (fg.innerRows root) g).edges =
       g.edges ++ innerEdgeList (fg.innerRows root)) ∧
    (set_input_edges (fg.inputRows root) (set_input_edges (fg.inputRows root) g) =
      { set_input_edges (fg.inputRows root) g with
        edges := (set_input_edges (fg.inputRows root) g).edges ++
          inputEdgeList (fg.inputRows root) } ∧
     (set_input_edges (fg.inputRows root) g).edges =
       g.edges ++ inputEdgeList (fg.inputRows root)) ∧
    (set_output_edges (fg.outputRows root) (set_output_edges (fg.outputRows root) g) =
      { set_output_edges (fg.outputRows root) g with
        edges := (set_output_edges (fg.outputRows root) g).edges ++
          outputEdgeList (fg.outputRows root) } ∧
     (set_output_edges (fg.outputRows root) g).edges =
       g.edges ++ outputEdgeList (fg.outputRows root)) :=
  ⟨⟨set_inner_edges_idem _ _, set_inner_edges_edges _ _⟩,
    ⟨set_input_edges_idem _ _, set_input_edges_edges _ _⟩,
    ⟨set_output_edges_idem _ _, set_output_edges_edges _ _⟩⟩

/-- C6, counterexample to the claim as stated: on a URI with two `#`
characters the implemented fragment is everything after the *first* `#`,
not the substring after the last `#` that the claim describes, and that is
the label the extractor stores. -/
theorem C6_counterexample :
    fragment "a#b#c" = "b#c" ∧
    specLastHashFragment "a#b#c" = "c" ∧
    ("b#c" : String) ≠ "c" ∧
    (set_inner_edges [⟨"a#b#c", none, "z", none⟩] init_dot_graph).nodeAttrs "a#b#c" =
      some ⟨some "lightgoldenrodyellow", some "filled", some "b#c"⟩ := by
  refine ⟨by decide, by decide, by decide, by decide⟩

/-- C6 (amended): the fallback label of a URI is the substring after the
first `#` (everything that follows it, even further `#` characters
included); a URI with no `#` yields the empty string, which is used as the
node label unchanged, with no special-casing. -/
theorem C6_fragment_derivation :
    (∀ pre post : List Char, '#' ∉ pre → fragment ⟨pre ++ '#' :: post⟩ = ⟨post⟩) ∧
    (∀ s : String, '#' ∉ s.data → fragment s = "") ∧
    (∀ (g : DotGraph) (u st : String), '#' ∉ u.data →
      (set_input_edges [⟨u, st⟩] g).nodeAttrs u =
        some ⟨some "#94DDF4", some "filled", some ""⟩) := by
  refine ⟨fun pre post h => fragment_first_hash pre post h,
    fun s h => fragment_no_hash s h, ?_⟩
  intro g u st h
  have hmem : (⟨u, st⟩ : InputRow) ∈ [(⟨u, st⟩ : InputRow)] :=
    List.mem_cons_self _ _
  have hb := inputFold_boundary _ hmem
    { g with inputsClusterAttrs := some inputsClusterDecoration }
  rw [set_input_edges_eq_fold]
  refine Eq.trans hb ?_
  simp [boundaryAttrs, fragment_no_hash u h]

/-- C6 witness: the amended fragment rule evaluated at concrete URIs, and a
fragment-less input URI whose node label is the empty string. -/
theorem C6_witness :
    fragment "ab#cd" = "cd" ∧
    fragment "nohash" = "" ∧
    (set_input_edges [⟨"nohash", "a#s"⟩] init_dot_graph).nodeAttrs "nohash" =
      some ⟨some "#94DDF4", some "filled", some ""⟩ :=
  ⟨C6_fragment_derivation.1 "ab".data "cd".data (by decide),
    C6_fragment_derivation.2.1 "nohash" (by decide),
    C6_fragment_derivation.2.2 init_dot_graph "nohash" "a#s" (by decide)⟩

/-- C10: the textual export is read-only and deterministic — calling `dot`
any number of times returns the same string every time and leaves the whole
graph state (nodes, edges, clusters, attributes) unchanged. -/
theorem C10_dot_pure (n : Nat) (g : DotGraph) :
    dotN n g = (List.replicate n (toDot g), g) := by
  induction n with
  | zero => rfl
  | succ n ih => simp [dotN, dot, ih, List.replicate_succ]

/-- C3: for every input-edge row the extractor creates/updates the input
node with the boundary styling and the fragment of the input URI as label
(rows carry no declared label, so none is ever consulted), places it in the
inputs cluster, and adds the input-to-step edge; for every output-edge row
it does the symmetric thing with the step-to-output edge and the outputs
cluster. -/
theorem C3_boundary_edges :
    (∀ (rows : List InputRow) (g : DotGraph) (row : InputRow), row ∈ rows →
      (set_input_edges rows g).nodeAttrs row.input =
        some ⟨some "#94DDF4", some "filled", some (fragment row.input)⟩ ∧
      (row.input, row.step) ∈ (set_input_edges rows g).edges ∧
      row.input ∈ (set_input_edges rows g).inputsCluster) ∧
    (∀ (rows : List OutputRow) (g : DotGraph) (row : OutputRow), row ∈ rows →
      (set_output_edges rows g).nodeAttrs row.output =
        some ⟨some "#94DDF4", some "filled", some (fragment row.output)⟩ ∧
      (row.step, row.output) ∈ (set_output_edges rows g).edges ∧
      row.output ∈ (set_output_edges rows g).outputsCluster) := by
  constructor
  · intro rows g row hr
    refine ⟨?_, ?_, ?_⟩
    · rw [set_input_edges_eq_fold]
      exact inputFold_boundary rows hr _
    · rw [set_input_edges_edges]
      apply List.mem_append_right
      exact List.mem_map_of_mem _ hr
    · rw [set_input_edges_eq_fold, inputFold_inputsCluster]
      exact foldInsert_mem_self InputRow.input hr _
  · intro rows g row hr
    refine ⟨?_, ?_, ?_⟩
    · rw [set_output_edges_eq_fold]
      exact outputFold_boundary rows hr _
    · rw [set_output_edges_edges]
      apply List.mem_append_right
      exact List.mem_map_of_mem _ hr
    · rw [set_output_edges_eq_fold, outputFold_outputsCluster]
      exact foldInsert_mem_self OutputRow.output hr _

/-- C3 witness: one concrete input row and one concrete output row, with the
boundary attributes, the cluster memberships and both edges evaluated. -/
theorem C3_witness :
    (set_input_edges [⟨"a#i", "a#s"⟩] init_dot_graph).nodeAttrs "a#i" =
      some ⟨some "#94DDF4", some "filled", some "i"⟩ ∧
    ("a#i", "a#s") ∈ (set_input_edges [⟨"a#i", "a#s"⟩] init_dot_graph).edges ∧
    "a#i" ∈ (set_input_edges [⟨"a#i", "a#s"⟩] init_dot_graph).inputsCluster ∧
    (set_output_edges [⟨"a#o", "a#s"⟩] init_dot_graph).nodeAttrs "a#o" =
      some ⟨some "#94DDF4", some "filled", some "o"⟩ ∧
    ("a#s", "a#o") ∈ (set_output_edges [⟨"a#o", "a#s"⟩] init_dot_graph).edges ∧
    "a#o" ∈ (set_output_edges [⟨"a#o", "a#s"⟩] init_dot_graph).outputsCluster := by
  have h1 := C3_boundary_edges.1 [⟨"a#i", "a#s"⟩] init_dot_graph ⟨"a#i", "a#s"⟩
    (by decide)
  have h2 := C3_boundary_edges.2 [⟨"a#o", "a#s"⟩] init_dot_graph ⟨"a#o", "a#s"⟩
    (by decide)
  exact ⟨h1.1, h1.2.1, h1.2.2, h2.1, h2.2.1, h2.2.2⟩

/-- C7: viewer construction is the fixed pipeline load, then root
resolution, then the inner, input and output extractions in that order,
each extractor bound to the resolved root (the workflow of the first root
row); the resulting diagram is exactly the three passes composed in that
order on the fresh graph. -/
theorem C7_pipeline_order (fg : FactGraph) (w : String) (rest : List String)
    (hroot : fg.rootRows = w :: rest) :
    CWLViewer_initTrace fg =
      .ok (builtGraph fg w,
        [InitEvent.load, InitEvent.resolveRoot w, InitEvent.extractInner w,
          InitEvent.extractInput w, InitEvent.extractOutput w]) ∧
    builtGraph fg w =
      set_output_edges (fg.outputRows w)
        (set_input_edges (fg.inputRows w)
          (set_inner_edges (fg.innerRows w) init_dot_graph)) ∧
    CWLViewer_init fg = .ok (builtGraph fg w) := by
  refine ⟨?_, rfl, ?_⟩
  · unfold CWLViewer_initTrace get_root_graph_uri
    rw [hroot]
    rfl
  · unfold CWLViewer_init get_root_graph_uri
    rw [hroot]

/-- C7 witness: the event trace of a concrete construction, in pipeline
order with every extractor bound to the resolved root. -/
theorem C7_witness :
    CWLViewer_initTrace ⟨["w"], fun _ => [], fun _ => [], fun _ => []⟩ =
      .ok (builtGraph ⟨["w"], fun _ => [], fun _ => [], fun _ => []⟩ "w",
        [InitEvent.load, InitEvent.resolveRoot "w", InitEvent.extractInner "w",
          InitEvent.extractInput "w", InitEvent.extractOutput "w"]) :=
  (C7_pipeline_order ⟨["w"], fun _ => [], fun _ => [], fun _ => []⟩ "w" [] rfl).1

/-- C8: serializing a built diagram graph with the textual exporter and
re-parsing the text with the standard reader reproduces exactly the node
list and the edge list, for every graph whose names avoid the quote
delimiter (true of URIs).  The exporter and reader are modelled from the
spec, since the concrete serializer (`pygraphviz.AGraph.to_string`) is
external to this repository. -/
theorem C8_dot_roundtrip (g : DotGraph)
    (hn : ∀ n ∈ g.nodeOrder, '"' ∉ n.data)
    (he : ∀ e ∈ g.edges, '"' ∉ e.1.data ∧ '"' ∉ e.2.data) :
    parseDot (dot g).1 = some (g.nodeOrder, g.edges) :=
  parseDot_toDot g hn he

/-- C8 witness: a fully built two-step diagram round-trips to its exact
node list and edge list. -/
theorem C8_witness :
    parseDot (dot (builtGraph ⟨["w"], fun _ => [⟨"a#s1", none, "a#s2", none⟩],
        fun _ => [⟨"a#i", "a#s1"⟩], fun _ => [⟨"a#o", "a#s2"⟩]⟩ "w")).1 =
      some (["a#s1", "a#s2", "a#i", "a#o"],
        [("a#s1", "a#s2"), ("a#i", "a#s1"), ("a#s2", "a#o")]) :=
  C8_dot_roundtrip _ (by decide) (by decide)

/-- C4, counterexample to the claim as stated, in two parts.  First, in a
single-step workflow with one input row and no inner-edge rows, the
inputs-cluster node's only outgoing edge points at a step node created
implicitly by `add_edge`, which carries no attributes at all — in
particular it is not an internal-step node, contradicting the claim that
every inputs-cluster node has an edge to some internal-step node.  Second,
on a fact graph whose rows use the URI `f#x` both as an input and as an
output, the node `f#x` is a member of both the inputs cluster and the
outputs cluster, contradicting the claim that no node belongs to both. -/
theorem C4_counterexample :
    ((builtGraph ⟨["w"], fun _ => [], fun _ => [⟨"f#i", "f#s"⟩], fun _ => []⟩
        "w").inputsCluster = ["f#i"] ∧
      (builtGraph ⟨["w"], fun _ => [], fun _ => [⟨"f#i", "f#s"⟩], fun _ => []⟩
        "w").edges = [("f#i", "f#s")] ∧
      (builtGraph ⟨["w"], fun _ => [], fun _ => [⟨"f#i", "f#s"⟩], fun _ => []⟩
        "w").nodeAttrs "f#s" = some ⟨none, none, none⟩ ∧
      ¬ ∃ a : NodeAttrs,
        (builtGraph ⟨["w"], fun _ => [], fun _ => [⟨"f#i", "f#s"⟩], fun _ => []⟩
            "w").nodeAttrs "f#s" = some a ∧
          a.fillcolor = some "lightgoldenrodyellow") ∧
    ("f#x" ∈ (builtGraph ⟨["w"], fun _ => [],
        fun _ => [⟨"f#x", "f#s"⟩], fun _ => [⟨"f#x", "f#t"⟩]⟩ "w").inputsCluster ∧
      "f#x" ∈ (builtGraph ⟨["w"], fun _ => [],
        fun _ => [⟨"f#x", "f#s"⟩], fun _ => [⟨"f#x", "f#t"⟩]⟩ "w").outputsCluster) := by
  refine ⟨⟨by decide, by decide, by decide, ?_⟩, by decide, by decide⟩
  rintro ⟨a, ha, hfc⟩
  have hbare : a = ⟨none, none, none⟩ := by
    have h2 : (builtGraph ⟨["w"], fun _ => [], fun _ => [⟨"f#i", "f#s"⟩], fun _ => []⟩
        "w").nodeAttrs "f#s" = some ⟨none, none, none⟩ := by decide
    rw [h2] at ha
    exact (Option.some.injEq _ _ ▸ ha).symm
  rw [hbare] at hfc
  cases hfc

/-- C4 (amended): after the full pipeline, every node of the inputs cluster
carries the boundary styling and has an outgoing edge to the step node of
one of its input rows (that step node need not be an internal-step node —
it may be an implicitly created bare node); symmetrically for the outputs
cluster with incoming edges; and provided no URI occurs both as an input
and as an output of the result rows, no node belongs to both clusters. -/
theorem C4_cluster_invariants (fg : FactGraph) (w : String) (rest : List String)
    (hroot : fg.rootRows = w :: rest) :
    (∀ n ∈ (builtGraph fg w).inputsCluster,
      (builtGraph fg w).nodeAttrs n = some (boundaryAttrs n) ∧
      ∃ row ∈ fg.inputRows w, row.input = n ∧
        (n, row.step) ∈ (builtGraph fg w).edges) ∧
    (∀ n ∈ (builtGraph fg w).outputsCluster,
      (builtGraph fg w).nodeAttrs n = some (boundaryAttrs n) ∧
      ∃ row ∈ fg.outputRows w, row.output = n ∧
        (row.step, n) ∈ (builtGraph fg w).edges) ∧
    ((∀ ri ∈ fg.inputRows w, ∀ ro ∈ fg.outputRows w, ri.input ≠ ro.output) →
      ∀ n, ¬ (n ∈ (builtGraph fg w).inputsCluster ∧
        n ∈ (builtGraph fg w).outputsCluster)) ∧
    CWLViewer_init fg = .ok (builtGraph fg w) := by
  have hinC : ∀ n, n ∈ (builtGraph fg w).inputsCluster ↔
      ∃ row ∈ fg.inputRows w, row.input = n := by
    intro n
    rw [builtGraph_inputsCluster, foldInsert_mem_iff InputRow.input (fg.inputRows w)]
    simp
  have houtC : ∀ n, n ∈ (builtGraph fg w).outputsCluster ↔
      ∃ row ∈ fg.outputRows w, row.output = n := by
    intro n
    rw [builtGraph_outputsCluster, foldInsert_mem_iff OutputRow.output (fg.outputRows w)]
    simp
  refine ⟨?_, ?_, ?_, ?_⟩
  · intro n hn
    obtain ⟨row, hrow, he⟩ := (hinC n).mp hn
    constructor
    · have h1 : (set_input_edges (fg.inputRows w)
          (set_inner_edges (fg.innerRows w) init_dot_graph)).nodeAttrs n =
          some (boundaryAttrs n) := by
        subst he
        rw [set_input_edges_eq_fold]
        exact inputFold_boundary _ hrow _
      unfold builtGraph
      rw [set_output_edges_eq_fold]
      exact outputFold_boundary_preserve _ _ h1
    · refine ⟨row, hrow, he, ?_⟩
      rw [builtGraph_edges]
      apply List.mem_append_left
      apply List.mem_append_right
      exact he ▸ List.mem_map_of_mem _ hrow
  · intro n hn
    obtain ⟨row, hrow, he⟩ := (houtC n).mp hn
    constructor
    · subst he
      unfold builtGraph
      rw [set_output_edges_eq_fold]
      exact outputFold_boundary _ hrow _
    · refine ⟨row, hrow, he, ?_⟩
      rw [builtGraph_edges]
      apply List.mem_append_right
      exact he ▸ List.mem_map_of_mem _ hrow
  · intro hdisj n hn
    obtain ⟨ri, hri, hei⟩ := (hinC n).mp hn.1
    obtain ⟨ro, hro, heo⟩ := (houtC n).mp hn.2
    exact hdisj ri hri ro hro (hei.trans heo.symm)
  · unfold CWLViewer_init get_root_graph_uri
    rw [hroot]

/-- C4 witness: a concrete two-step workflow with one input and one output;
the cluster facts, the boundary styling, the connecting edges and the
disjointness of the clusters are all evaluated. -/
theorem C4_witness :
    ((builtGraph ⟨["w"], fun _ => [⟨"a#s1", none, "a#s2", none⟩],
        fun _ => [⟨"a#i", "a#s1"⟩], fun _ => [⟨"a#o", "a#s2"⟩]⟩ "w").nodeAttrs "a#i" =
      some (boundaryAttrs "a#i") ∧
      ∃ row ∈ [(⟨"a#i", "a#s1"⟩ : InputRow)], row.input = "a#i" ∧
        ("a#i", row.step) ∈ (builtGraph ⟨["w"], fun _ => [⟨"a#s1", none, "a#s2", none⟩],
          fun _ => [⟨"a#i", "a#s1"⟩], fun _ => [⟨"a#o", "a#s2"⟩]⟩ "w").edges) ∧
    ¬ ("a#i" ∈ (builtGraph ⟨["w"], fun _ => [⟨"a#s1", none, "a#s2", none⟩],
        fun _ => [⟨"a#i", "a#s1"⟩], fun _ => [⟨"a#o", "a#s2"⟩]⟩ "w").inputsCluster ∧
      "a#i" ∈ (builtGraph ⟨["w"], fun _ => [⟨"a#s1", none, "a#s2", none⟩],
        fun _ => [⟨"a#i", "a#s1"⟩], fun _ => [⟨"a#o", "a#s2"⟩]⟩ "w").outputsCluster) :=
  ⟨(C4_cluster_invariants ⟨["w"], fun _ => [⟨"a#s1", none, "a#s2", none⟩],
      fun _ => [⟨"a#i", "a#s1"⟩], fun _ => [⟨"a#o", "a#s2"⟩]⟩ "w" [] rfl).1 "a#i"
      (by decide),
    (C4_cluster_invariants ⟨["w"], fun _ => [⟨"a#s1", none, "a#s2", none⟩],
      fun _ => [⟨"a#i", "a#s1"⟩], fun _ => [⟨"a#o", "a#s2"⟩]⟩ "w" [] rfl).2.2.1
      (by decide) "a#i"⟩

/-- C9, counterexample to the claim as stated: a result row whose step URI
equals its own input URI.  The step appears in no inner-edge row, yet after
construction its node carries the boundary fill color and a label, not the
bare attribute set the claim asserts. -/
theorem C9_counterexample :
    (builtGraph ⟨["w"], fun _ => [], fun _ => [⟨"a#x", "a#x"⟩], fun _ => []⟩
        "w").nodeAttrs "a#x" = some ⟨some "#94DDF4", some "filled", some "x"⟩ ∧
    (∀ r ∈ ([] : List InnerRow), r.source_step ≠ "a#x" ∧ r.target_step ≠ "a#x") ∧
    some (⟨some "#94DDF4", some "filled", some "x"⟩ : NodeAttrs) ≠
      some (⟨none, none, none⟩ : NodeAttrs) := by
  refine ⟨by decide, by simp, by decide⟩

/-- C9 (amended): for every input- or output-edge row whose step URI occurs
in no inner-edge row and is not itself an input or output URI of any row,
the built diagram contains a node for that step URI created solely by edge
insertion: it carries no fill color, no style and no label attribute. -/
theorem C9_implicit_step_nodes (fg : FactGraph) (w : String) (rest : List String)
    (s : String) (hroot : fg.rootRows = w :: rest)
    (hinner : ∀ r ∈ fg.innerRows w, r.source_step ≠ s ∧ r.target_step ≠ s)
    (hinputs : ∀ r ∈ fg.inputRows w, r.input ≠ s)
    (houtputs : ∀ r ∈ fg.outputRows w, r.output ≠ s)
    (hstep : (∃ r ∈ fg.inputRows w, r.step = s) ∨ (∃ r ∈ fg.outputRows w, r.step = s)) :
    CWLViewer_init fg = .ok (builtGraph fg w) ∧
    (builtGraph fg w).nodeAttrs s = some ⟨none, none, none⟩ ∧
    s ∈ (builtGraph fg w).nodeOrder := by
  have hA : (set_inner_edges (fg.innerRows w) init_dot_graph).nodeAttrs s = none := by
    rw [set_inner_edges_attrs, innerLastWrite_none _ hinner]
    rfl
  by_cases hin : ∃ r ∈ fg.inputRows w, r.step = s
  · have h2 := inputFold_implicit (fg.inputRows w) hinputs hin
      { set_inner_edges (fg.innerRows w) init_dot_graph with
        inputsClusterAttrs := some inputsClusterDecoration } hA
    refine ⟨?_, ?_, ?_⟩
    · unfold CWLViewer_init get_root_graph_uri
      rw [hroot]
    · unfold builtGraph
      rw [set_output_edges_eq_fold]
      apply outputFold_preserve_some _ houtputs
      exact h2.1
    · unfold builtGraph
      rw [set_output_edges_eq_fold]
      apply outputFold_order_mono
      exact h2.2
  · have hout := hstep.resolve_left hin
    have hstepne : ∀ r ∈ fg.inputRows w, r.step ≠ s := fun r hr e => hin ⟨r, hr, e⟩
    have hB : (set_input_edges (fg.inputRows w)
        (set_inner_edges (fg.innerRows w) init_dot_graph)).nodeAttrs s = none := by
      rw [set_input_edges_eq_fold,
        inputFold_attrs_untouched (fg.inputRows w)
          (fun r hr => ⟨hinputs r hr, hstepne r hr⟩)]
      exact hA
    have h2 := outputFold_implicit (fg.outputRows w) houtputs hout
      { set_input_edges (fg.inputRows w)
          (set_inner_edges (fg.innerRows w) init_dot_graph) with
        outputsClusterAttrs := some outputsClusterDecoration } hB
    refine ⟨?_, ?_, ?_⟩
    · unfold CWLViewer_init get_root_graph_uri
      rw [hroot]
    · unfold builtGraph
      rw [set_output_edges_eq_fold]
      exact h2.1
    · unfold builtGraph
      rw [set_output_edges_eq_fold]
      exact h2.2

/-- C9 witness: one input row whose step occurs nowhere else; the step node
exists in the built diagram with the bare attribute set. -/
theorem C9_witness :
    CWLViewer_init ⟨["w"], fun _ => [], fun _ => [⟨"a#i", "a#s"⟩], fun _ => []⟩ =
      .ok (builtGraph ⟨["w"], fun _ => [], fun _ => [⟨"a#i", "a#s"⟩], fun _ => []⟩
        "w") ∧
    (builtGraph ⟨["w"], fun _ => [], fun _ => [⟨"a#i", "a#s"⟩], fun _ => []⟩
        "w").nodeAttrs "a#s" = some ⟨none, none, none⟩ ∧
    "a#s" ∈ (builtGraph ⟨["w"], fun _ => [], fun _ => [⟨"a#i", "a#s"⟩], fun _ => []⟩
        "w").nodeOrder :=
  C9_implicit_step_nodes ⟨["w"], fun _ => [], fun _ => [⟨"a#i", "a#s"⟩], fun _ => []⟩
    "w" [] "a#s" rfl (by simp) (by decide) (by simp) (by decide)

end PyCwlViewer
